import Mathlib

/-!
Shallow embedding of the agent control loop and session-state tracker of the
Agentic-zork repository (`src/hamonk_agent/agent.py` and
`src/hamonk_agent/mcp_server.py`), together with theorems settling the frozen
claims of the natural-language specification.

Python strings are modelled as `List Char`.  The Python string methods used by
the source (`lower`, `strip`, `split`, `in`, `startswith`, `replace`) are given
executable structural definitions below, mirroring CPython semantics on the
ASCII texts the program handles.
-/

namespace ZorkAgent

/-- Python strings are modelled as lists of characters. -/
abbrev Str := List Char

/-- Converts a Lean string literal into the character-list model. -/
def str (s : String) : Str := s.data

/-- Python whitespace characters, as recognised by `str.strip` and `str.split`. -/
def isSpaceC (c : Char) : Bool :=
  c = ' ' || c = '\t' || c = '\n' || c = '\r' || c = '\x0b' || c = '\x0c'

/-- ASCII lower-casing of one character (`str.lower` on the ASCII texts here). -/
def lowerC (c : Char) : Char :=
  if 65 ≤ c.toNat ∧ c.toNat ≤ 90 then Char.ofNat (c.toNat + 32) else c

/-- ASCII upper-casing of one character (`str.upper`). -/
def upperC (c : Char) : Char :=
  if 97 ≤ c.toNat ∧ c.toNat ≤ 122 then Char.ofNat (c.toNat - 32) else c

/-- Python `str.lower`. -/
def lowerL (s : Str) : Str := s.map lowerC

/-- Python `str.upper`. -/
def upperL (s : Str) : Str := s.map upperC

/-- Python `str.strip` with no arguments: drop leading and trailing whitespace. -/
def stripL (s : Str) : Str :=
  ((s.dropWhile (fun c => isSpaceC c)).reverse.dropWhile (fun c => isSpaceC c)).reverse

/-- Boolean test that `p` is an initial segment of `s` (`str.startswith`). -/
def isPre : Str → Str → Bool
  | [], _ => true
  | _ :: _, [] => false
  | a :: as, b :: bs => (a = b) && isPre as bs

/-- Python substring containment `needle in hay`. -/
def hasSub (n : Str) : Str → Bool
  | [] => isPre n []
  | c :: cs => isPre n (c :: cs) || hasSub n cs

/-- Splits on every character satisfying `p`, keeping empty segments, like
Python `str.split(sep)` for a one-character separator.  Always returns a
nonempty list of segments. -/
def splitBy (p : Char → Bool) : Str → List Str
  | [] => [[]]
  | c :: cs =>
    match splitBy p cs with
    | [] => [[]]
    | h :: t => if p c then [] :: h :: t else (c :: h) :: t

/-- Python `str.split("\n")`. -/
def splitNL (s : Str) : List Str := splitBy (fun c => c = '\n') s

/-- Python `str.split(",")`. -/
def splitComma (s : Str) : List Str := splitBy (fun c => c = ',') s

/-- Python whitespace `str.split()`: split on whitespace runs, dropping empties. -/
def wordsL (s : Str) : List Str := (splitBy isSpaceC s).filter (fun w => w ≠ [])

/-- Python `" ".join(ws)`. -/
def joinW : List Str → Str
  | [] => []
  | [w] => w
  | w :: ws => w ++ ' ' :: joinW ws

/-- Python `" ".join(s.split())`: collapse internal whitespace. -/
def collapseWS (s : Str) : Str := joinW (wordsL s)

/-- Python `s.split(sep, 1)` for a one-character separator: `none` when the
separator does not occur, otherwise the straddling pair. -/
def splitOnceC (sep : Char) : Str → Option (Str × Str)
  | [] => none
  | c :: cs =>
    if c = sep then some ([], cs)
    else (splitOnceC sep cs).map fun p => (c :: p.1, p.2)

/-- The backtick character, written via its code point. -/
def backtickC : Char := Char.ofNat 96

/-- Net effect of the source's `.replace("**", "").replace("*", "")
.replace(BACKTICK, "")` chain: the first replace deletes adjacent star pairs
and the second deletes every remaining star, so the composition removes
exactly all star and backtick characters. -/
def stripMarks (s : Str) : Str := s.filter (fun c => !(c = '*' || c = backtickC))

/-- ASCII decimal digit test (`\d` in the source's regular expressions). -/
def isDigitC (c : Char) : Bool := 48 ≤ c.toNat && c.toNat ≤ 57

/-- Numeric value of a digit run (`int(...)` on the captured group). -/
def digitsToNat (s : Str) : Nat := s.foldl (fun a c => a * 10 + (c.toNat - 48)) 0

/-- The text following the first occurrence of `m` in `s` (`none` when `m`
does not occur).  `s.split(m)[1]` in Python is `upToFirst m` of this. -/
def restAfter (m : Str) : Str → Option Str
  | [] => if m = [] then some [] else none
  | c :: cs => if isPre m (c :: cs) then some (List.drop m.length (c :: cs)) else restAfter m cs

/-- The text preceding the first occurrence of `m` (all of `s` when absent). -/
def upToFirst (m : Str) : Str → Str
  | [] => []
  | c :: cs => if isPre m (c :: cs) then [] else c :: upToFirst m cs

/-- Consume the exact character sequence `p` from the head of `s`. -/
def dropEx : Str → Str → Option Str
  | [], s => some s
  | _ :: _, [] => none
  | p :: ps, c :: cs => if c = p then dropEx ps cs else none

/-- Consume `p` case-insensitively from the head of `s` (model of matching a
literal under `re.IGNORECASE`). -/
def dropCI : Str → Str → Option Str
  | [], s => some s
  | _ :: _, [] => none
  | p :: ps, c :: cs => if lowerC c = lowerC p then dropCI ps cs else none

/-- Leftmost-match search: try `f` at every suffix, leftmost first, as
`re.search` does. -/
def searchO {α : Type} (f : Str → Option α) : Str → Option α
  | [] => f []
  | c :: cs =>
    match f (c :: cs) with
    | some r => some r
    | none => searchO f cs

/-!  Model of the Python values `json.loads` can return in this program.
Numeric tokens are kept as their source text: the agent never inspects a
numeric argument value, only formats or discards it. -/

/-- JSON values as returned by `json.loads`. -/
inductive JVal where
  | jstr (s : Str)
  | jnum (s : Str)
  | jbool (b : Bool)
  | jnull
  | jarr (l : List JVal)
  | jobj (l : List (Str × JVal))

/-- JSON whitespace as accepted by Python's `json` module. -/
def isJWS (c : Char) : Bool := c = ' ' || c = '\t' || c = '\n' || c = '\r'

/-- Drop leading JSON whitespace. -/
def skipWS (s : Str) : Str := s.dropWhile isJWS

/-- Value of one hexadecimal digit. -/
def hexVal (c : Char) : Option Nat :=
  if 48 ≤ c.toNat ∧ c.toNat ≤ 57 then some (c.toNat - 48)
  else if 97 ≤ c.toNat ∧ c.toNat ≤ 102 then some (c.toNat - 87)
  else if 65 ≤ c.toNat ∧ c.toNat ≤ 70 then some (c.toNat - 55)
  else none

/-- Parse the body of a JSON string after the opening quote: returns the
decoded content and the text after the closing quote.  Escape handling
mirrors `json.loads` for the simple escapes and `\uXXXX` (surrogate pairing
is not modelled; no text in this program uses it). -/
def parseJStr : Str → Option (Str × Str)
  | [] => none
  | c :: cs =>
    if c = '"' then some ([], cs)
    else if c = '\\' then
      match cs with
      | [] => none
      | 'u' :: h1 :: h2 :: h3 :: h4 :: cs3 =>
        match hexVal h1, hexVal h2, hexVal h3, hexVal h4 with
        | some v1, some v2, some v3, some v4 =>
          (parseJStr cs3).map fun p =>
            (Char.ofNat (((v1 * 16 + v2) * 16 + v3) * 16 + v4) :: p.1, p.2)
        | _, _, _, _ => none
      | e :: cs2 =>
        let dec : Option Char :=
          if e = '"' then some '"'
          else if e = '\\' then some '\\'
          else if e = '/' then some '/'
          else if e = 'n' then some '\n'
          else if e = 't' then some '\t'
          else if e = 'r' then some '\r'
          else if e = 'b' then some (Char.ofNat 8)
          else if e = 'f' then some (Char.ofNat 12)
          else none
        match dec with
        | some d => (parseJStr cs2).map fun p => (d :: p.1, p.2)
        | none => none
    else (parseJStr cs).map fun p => (c :: p.1, p.2)

/-- Parse a JSON number token (sign, integer part without leading zeros,
optional fraction and exponent); returns the token text and the rest. -/
def parseJNum (s : Str) : Option (Str × Str) :=
  let (sign, s1) : Str × Str := match s with
    | '-' :: r => ([ '-' ], r)
    | _ => ([], s)
  let ds := s1.takeWhile isDigitC
  let r1 := s1.dropWhile isDigitC
  if ds = [] then none
  else if 1 < ds.length ∧ ds.headD 'x' = '0' then none
  else
    let (fr, r2) : Str × Str := match r1 with
      | '.' :: r2 =>
        let fds := r2.takeWhile isDigitC
        if fds = [] then ([], r1) else ('.' :: fds, r2.dropWhile isDigitC)
      | _ => ([], r1)
    if fr = [] ∧ r2 ≠ r1 then none
    else
      let (ex, r3) : Str × Str := match r2 with
        | e :: r3 =>
          if e = 'e' ∨ e = 'E' then
            let (es, r4) : Str × Str := match r3 with
              | '+' :: r4 => (['+'], r4)
              | '-' :: r4 => (['-'], r4)
              | _ => ([], r3)
            let eds := r4.takeWhile isDigitC
            if eds = [] then ([], r2) else (e :: (es ++ eds), r4.dropWhile isDigitC)
          else ([], r2)
        | _ => ([], r2)
      some (sign ++ ds ++ fr ++ ex, r3)

mutual

/-- Parse one JSON value (fuel-indexed; the fuel only bounds nesting depth). -/
def parseJVal : Nat → Str → Option (JVal × Str)
  | 0, _ => none
  | fuel + 1, s =>
    match skipWS s with
    | [] => none
    | c :: cs =>
      if c = '"' then (parseJStr cs).map fun p => (.jstr p.1, p.2)
      else if c = '{' then
        match skipWS cs with
        | '}' :: rest => some (.jobj [], rest)
        | _ => (parseJMembers fuel cs).map fun p => (.jobj p.1, p.2)
      else if c = '[' then
        match skipWS cs with
        | ']' :: rest => some (.jarr [], rest)
        | _ => (parseJItems fuel cs).map fun p => (.jarr p.1, p.2)
      else if isPre (str "true") (c :: cs) then some (.jbool true, (c :: cs).drop 4)
      else if isPre (str "false") (c :: cs) then some (.jbool false, (c :: cs).drop 5)
      else if isPre (str "null") (c :: cs) then some (.jnull, (c :: cs).drop 4)
      else if isPre (str "NaN") (c :: cs) then some (.jnum (str "NaN"), (c :: cs).drop 3)
      else if isPre (str "Infinity") (c :: cs) then some (.jnum (str "Infinity"), (c :: cs).drop 8)
      else if isPre (str "-Infinity") (c :: cs) then some (.jnum (str "-Infinity"), (c :: cs).drop 9)
      else (parseJNum (c :: cs)).map fun p => (.jnum p.1, p.2)

/-- Parse the members of a JSON object after the opening brace (at least one). -/
def parseJMembers : Nat → Str → Option (List (Str × JVal) × Str)
  | 0, _ => none
  | fuel + 1, s =>
    match skipWS s with
    | '"' :: cs =>
      match parseJStr cs with
      | none => none
      | some (key, r1) =>
        match skipWS r1 with
        | ':' :: r2 =>
          match parseJVal fuel r2 with
          | none => none
          | some (v, r3) =>
            match skipWS r3 with
            | ',' :: r4 =>
              (parseJMembers fuel r4).map fun p => ((key, v) :: p.1, p.2)
            | '}' :: r4 => some ([(key, v)], r4)
            | _ => none
        | _ => none
    | _ => none

/-- Parse the items of a JSON array after the opening bracket (at least one). -/
def parseJItems : Nat → Str → Option (List JVal × Str)
  | 0, _ => none
  | fuel + 1, s =>
    match parseJVal fuel s with
    | none => none
    | some (v, r1) =>
      match skipWS r1 with
      | ',' :: r2 => (parseJItems fuel r2).map fun p => (v :: p.1, p.2)
      | ']' :: r2 => some ([v], r2)
      | _ => none

end

/-- Model of Python `json.loads`: the whole text must be one JSON value. -/
def jsonLoads (s : Str) : Option JVal :=
  match parseJVal (s.length + 1) s with
  | some (v, rest) => if skipWS rest = [] then some v else none
  | none => none

/-- Python dict lookup on a parsed object: later duplicate keys overwrite
earlier ones, so the last binding wins. -/
def jlookup (l : List (Str × JVal)) (k : Str) : Option JVal :=
  (l.filter (fun p => p.1 = k)).getLast?.map (·.2)

/-!  Pure helper methods of `StudentAgent` (src/hamonk_agent/agent.py). -/

/-- The terminal phrases of `_is_game_over` (agent.py lines 626-631). -/
def gameOverPhrases : List Str :=
  [str "game over", str "you have died", str "you are dead", str "*** you have died ***"]

/-- Lines 624-633: `_is_game_over` — any terminal phrase occurs in the
lower-cased observation text. -/
def isGameOver (text : Str) : Bool :=
  gameOverPhrases.any (fun p => hasSub p (lowerL text))

/-- Lines 599-609: `_extract_location` — the first non-empty stripped line not
starting with a bracket, else "Unknown". -/
def extractLocA (obs : Str) : Str :=
  if obs = [] then str "Unknown"
  else
    match (splitNL (stripL obs)).findSome? (fun l =>
      let l' := stripL l
      if l' = [] then none
      else if isPre (str "[") l' then none
      else some l') with
    | some l => l
    | none => str "Unknown"

/-- First match of `Score:\s*(\d+)` (or, with a bracket, `\[Score:\s*(\d+)`)
starting at this position: the literal, optional whitespace, then digits. -/
def matchScoreAt (pat : Str) (s : Str) : Option Nat :=
  (dropCI pat s).bind fun r =>
    let ds := (r.dropWhile (fun c => isSpaceC c)).takeWhile isDigitC
    if ds = [] then none else some (digitsToNat ds)

/-- Match of `score[:\s]+(\d+)` starting at this position: the literal, at
least one colon-or-whitespace character, then digits. -/
def matchScore2At (s : Str) : Option Nat :=
  (dropCI (str "score") s).bind fun r =>
    let sep := r.takeWhile (fun c => c = ':' || isSpaceC c)
    let ds := (r.dropWhile (fun c => c = ':' || isSpaceC c)).takeWhile isDigitC
    if sep = [] then none
    else if ds = [] then none
    else some (digitsToNat ds)

/-- Leftmost match of pattern `Score:\s*(\d+)` under `re.IGNORECASE`. -/
def findScore1 (s : Str) : Option Nat := searchO (matchScoreAt (str "score:")) s

/-- Leftmost match of pattern `score[:\s]+(\d+)` under `re.IGNORECASE`. -/
def findScore2 (s : Str) : Option Nat := searchO matchScore2At s

/-- Leftmost match of pattern `\[Score:\s*(\d+)` under `re.IGNORECASE`. -/
def findScore3 (s : Str) : Option Nat := searchO (matchScoreAt (str "[score:")) s

/-- Lines 611-622: `_update_score` — each pattern's first match is folded into
the score with `max`, in the source's pattern order. -/
def updateScore (score : Nat) (text : Str) : Nat :=
  let s1 := match findScore1 text with | some n => max score n | none => score
  let s2 := match findScore2 text with | some n => max s1 n | none => s1
  match findScore3 text with | some n => max s2 n | none => s2

/-- Lines 635-646: `_parse_inventory`. -/
def parseInventory (inv : Str) : List Str :=
  if hasSub (str "empty-handed") (lowerL inv) || hasSub (str "nothing") (lowerL inv) then []
  else
    match splitOnceC ':' inv with
    | some (_, rest) =>
      ((splitComma (stripL rest)).map stripL).filter (fun w => w ≠ [])
    | none => []

/-!  Lines 493-526: `_parse_response`.  The Python loop can raise `IndexError`
on a TOOL line whose text after marker stripping is non-empty whitespace
(`raw_tool.split()[0]` on a whitespace-only truthy string), so the parser is
modelled in `Except`, with `.error` standing for a raised exception. -/

/-- Line 517: `args_part.replace("'", '"')`. -/
def quoteApos (s : Str) : Str := s.map (fun c => if c = '\'' then '"' else c)

/-- Match of the fallback pattern `"action"\s*:\s*"([^"]+)"` starting at this
position (case-sensitive; the capture is the maximal run of non-quote
characters, which must be non-empty). -/
def matchActionAt (s : Str) : Option Str :=
  (dropEx (str "\"action\"") s).bind fun r =>
    match r.dropWhile (fun c => isSpaceC c) with
    | ':' :: r2 =>
      match r2.dropWhile (fun c => isSpaceC c) with
      | '"' :: r4 =>
        let content := r4.takeWhile (fun c => c ≠ '"')
        if content = [] then none
        else
          match r4.dropWhile (fun c => c ≠ '"') with
          | '"' :: _ => some content
          | _ => none
      | _ => none
    | _ => none

/-- Lines 514-524: processing of the text after `ARGS:` — strict JSON parse
after quote replacement, else the `"action"` pattern, else `{"action": "look"}`. -/
def parseArgsPart (ap : Str) : JVal :=
  let ap2 := quoteApos ap
  match jsonLoads ap2 with
  | some v => v
  | none =>
    match searchO matchActionAt ap2 with
    | some a => .jobj [(str "action", .jstr a)]
    | none => .jobj [(str "action", .jstr (str "look"))]

/-- Lines 508-512: processing of the text after `TOOL:` — strip, lower-case,
strip decorative markers; empty means the default tool, otherwise the first
whitespace-token; a non-empty all-whitespace remainder raises `IndexError`. -/
def parseToolLine (afterColon : Str) : Except Str Str :=
  let s2 := stripMarks (lowerL (stripL afterColon))
  if s2 = [] then .ok (str "play_action")
  else
    match wordsL s2 with
    | w :: _ => .ok w
    | [] => .error (str "IndexError")

/-- One iteration of the `_parse_response` line loop over the accumulated
(thought, tool, args) triple; the `elif` chain tries THOUGHT, TOOL, ARGS in
that order on the upper-cased stripped line. -/
def parseLine (acc : Str × Str × JVal) (line : Str) : Except Str (Str × Str × JVal) :=
  let lc := stripL line
  let lu := upperL lc
  if isPre (str "THOUGHT:") lu then
    match splitOnceC ':' lc with
    | some (_, after) => .ok (stripL after, acc.2.1, acc.2.2)
    | none => .ok acc
  else if isPre (str "TOOL:") lu then
    match splitOnceC ':' lc with
    | some (_, after) => (parseToolLine after).map (fun t => (acc.1, t, acc.2.2))
    | none => .ok acc
  else if isPre (str "ARGS:") lu then
    match splitOnceC ':' lc with
    | some (_, after) => .ok (acc.1, acc.2.1, parseArgsPart (stripL after))
    | none => .ok acc
  else .ok acc

/-- The line loop of `_parse_response`. -/
def parseLines (acc : Str × Str × JVal) : List Str → Except Str (Str × Str × JVal)
  | [] => .ok acc
  | l :: ls =>
    match parseLine acc l with
    | .ok acc2 => parseLines acc2 ls
    | .error e => .error e

/-- The defaults of `_parse_response` (lines 495-497). -/
def parseDefaults : Str × Str × JVal :=
  (str "No reasoning provided", str "play_action", .jobj [(str "action", .jstr (str "look"))])

/-- Lines 493-526: `_parse_response` on the raw LLM output. -/
def parseResponse (response : Str) : Except Str (Str × Str × JVal) :=
  parseLines parseDefaults (splitNL (stripL response))

/-!  Lines 528-589: `_validate_tool_call`. -/

/-- The forbidden-verb lexicon `invalid_verb_map` (lines 547-555). -/
def invalidVerbPairs : List (Str × Str) :=
  [(str "check", str "examine"), (str "inspect", str "examine"),
   (str "search", str "look"), (str "grab", str "take"),
   (str "pick", str "take"), (str "use", str "examine"),
   (str "investigate", str "examine")]

/-- Lookup in a string-to-string association list. -/
def lookupPairs (l : List (Str × Str)) (k : Str) : Option Str :=
  (l.find? (fun p => p.1 = k)).map (·.2)

/-- Lines 557-564: verb substitution on the first word of the lower-cased
split action, then lower-case + strip, marker stripping and whitespace
collapse.  When the action has no words the original action text flows into
the clean-up steps unchanged, exactly as in the source. -/
def normalizeVerb (action : Str) : Str :=
  let a1 :=
    match wordsL (lowerL action) with
    | [] => action
    | w :: rest =>
      match lookupPairs invalidVerbPairs w with
      | some syn => joinW (syn :: rest)
      | none => action
  collapseWS (stripMarks (stripL (lowerL a1)))

/-- Failure count of an action in the `failed_actions` dict (0 when absent). -/
def countOf (failed : List (Str × Nat)) (k : Str) : Nat :=
  match failed.find? (fun p => p.1 = k) with
  | some p => p.2
  | none => 0

/-- Python `k in failed_actions` (dict key membership). -/
def hasKey (failed : List (Str × Nat)) (k : Str) : Bool :=
  failed.any (fun p => p.1 = k)

/-- `failed_actions[k] = failed_actions.get(k, 0) + 1`. -/
def bumpCount (failed : List (Str × Nat)) (k : Str) : List (Str × Nat) :=
  if hasKey failed k then
    failed.map (fun p => if p.1 = k then (p.1, p.2 + 1) else p)
  else failed ++ [(k, 1)]

/-- The `direction_variants` table (lines 578-582), in dict insertion order. -/
def directionVariants : List (Str × List Str) :=
  [(str "north", [str "north", str "n"]), (str "south", [str "south", str "s"]),
   (str "east", [str "east", str "e"]), (str "west", [str "west", str "w"]),
   (str "up", [str "up", str "u"]), (str "down", [str "down", str "d"])]

/-- The six cardinal/vertical directions seeded into `unexplored_directions`. -/
def sixDirs : List Str :=
  [str "north", str "south", str "east", str "west", str "up", str "down"]

/-- Lines 566-575: once an action has failed at least 3 times, substitute the
first valid action absent from the failure table; with no valid-actions list,
pop the next unexplored direction; otherwise leave the action unchanged. -/
def failedSub (validActions : List Str) (failed : List (Str × Nat))
    (unexp : List Str) (action : Str) : Str × List Str :=
  if hasKey failed action ∧ 3 ≤ countOf failed action then
    if validActions ≠ [] then
      match validActions.find? (fun v => !(hasKey failed v)) with
      | some v => (v, unexp)
      | none => (action, unexp)
    else
      match unexp with
      | d :: rest => (d, rest)
      | [] => (action, unexp)
  else (action, unexp)

/-- One iteration of the direction-tracking loop (lines 583-585): when the
action is one of this direction's variants and the canonical direction is
still unexplored, remove it. -/
def dirStep (action : Str) (u : List Str) (p : Str × List Str) : List Str :=
  if p.2.contains action && u.contains p.1 then u.erase p.1 else u

/-- Lines 577-585: remove the canonical direction of the action (if any) from
the unexplored-directions list. -/
def removeTriedDirs (action : Str) (unexp : List Str) : List Str :=
  directionVariants.foldl (dirStep action) unexp

/-- Lines 544-587: the `play_action` part of `_validate_tool_call` acting on
the action string; returns the final action and the updated
unexplored-directions list. -/
def validateAction (validActions : List Str) (failed : List (Str × Nat))
    (unexp : List Str) (action0 : Str) : Str × List Str :=
  let a1 := normalizeVerb action0
  let (a2, u1) := failedSub validActions failed unexp a1
  (a2, removeTriedDirs a2 u1)

/-- Lines 530-541: tool-name synonym fixing of `_validate_tool_call`. -/
def fixToolName (validTools : List Str) (t : Str) : Str :=
  if validTools.contains t then t
  else if [str "action", str "do", str "command"].contains t then str "play_action"
  else if [str "map", str "location"].contains t then str "get_map"
  else if [str "mem", str "state", str "status"].contains t then str "memory"
  else if [str "inv", str "items"].contains t then str "inventory"
  else str "play_action"

/-!  The orchestrator loop of `StudentAgent.run` (agent.py lines 233-408),
modelled as a state machine whose per-turn inputs are the results of the
external collaborators (map query, valid-actions query, LLM call, tool
dispatch).  `Except.error` models an exception that propagates out of `run`;
verbose printing and structured logging are I/O and out of scope. -/

/-- Set insertion (Python `set.add`), with deterministic insertion order. -/
def addSet (l : List Str) (x : Str) : List Str := if l.contains x then l else l ++ [x]

/-- One entry of the in-memory `self.history` list (lines 370-378). -/
structure HistEntry where
  step : Nat
  thought : Str
  tool : Str
  args : JVal
  result : Str
  location : Str
  score : Nat

/-- The mutable `StudentAgent` fields used by the run loop. -/
structure AgentState where
  history : List HistEntry
  recentActions : List Str
  score : Nat
  failedActions : List (Str × Nat)
  locationsExplored : List Str
  unexploredDirections : List Str
  stepsSinceMapCheck : Nat
  stepsSinceProgress : Nat
  validActions : List Str
  stepsSinceValidCheck : Nat
  currentMap : Option Str
  currentInventory : List Str

/-- Local variables of `StudentAgent.run` threaded across loop iterations.
`actionVar` is the Python local `action`: `none` before its first assignment
(reading it then raises `NameError`).  In `resultHistory` (the run-local
`history` list) the f-string rendering of the tool call is kept as the
(tool name, arguments) pair. -/
structure RunLocals where
  location : Str
  locationsVisited : List Str
  moves : Nat
  observation : Str
  actionVar : Option Str
  resultHistory : List (Str × Str × JVal × Str)

/-- Results of the external collaborators during one turn, as oracles;
`Except.error e` models the call raising an exception rendered as `e`. -/
structure TurnInputs where
  mapResult : Except Str Str
  validResult : Except Str Str
  llmResult : Except Str Str
  dispatchResult : Except Str Str

/-- Lines 234-242: periodic map refresh.  The `get_map` dispatch is not
wrapped in try/except, so an exception there propagates. -/
def mapSection (st : AgentState) (inp : TurnInputs) : Except Str AgentState :=
  let smc := st.stepsSinceMapCheck + 1
  if 5 ≤ smc ∨ 3 < st.stepsSinceProgress then
    match inp.mapResult with
    | .error e => .error e
    | .ok t => .ok { st with currentMap := some t, stepsSinceMapCheck := 0 }
  else .ok { st with stepsSinceMapCheck := smc }

/-- Lines 250-252: parsing of the valid-actions text: the segment after the
first "Valid actions:" marker, stripped, split on commas, each entry stripped. -/
def parseValidList (t : Str) : List Str :=
  match restAfter (str "Valid actions:") t with
  | some after => (splitComma (stripL (upToFirst (str "Valid actions:") after))).map stripL
  | none => []

/-- Lines 244-258: periodic valid-actions refresh.  The dispatch and parsing
are inside try/except: on an exception the list is unchanged and the counter
keeps its incremented value; on success the counter resets even when the
marker is absent. -/
def validSection (st : AgentState) (inp : TurnInputs) : AgentState :=
  let svc := st.stepsSinceValidCheck + 1
  if 4 ≤ svc ∨ 2 < st.stepsSinceProgress then
    match inp.validResult with
    | .error _ => { st with stepsSinceValidCheck := svc }
    | .ok t =>
      let st2 :=
        if hasSub (str "Valid actions:") t then { st with validActions := parseValidList t }
        else st
      { st2 with stepsSinceValidCheck := 0 }
  else { st with stepsSinceValidCheck := svc }

/-- Python `self.recent_actions[-5:]` truncation (lines 281-282). -/
def trim5 (l : List Str) : List Str := if 5 < l.length then l.drop (l.length - 5) else l

/-- Line 285: the last three recorded actions exist and are identical. -/
def lastThreeSame (l : List Str) : Bool :=
  match l.reverse with
  | a :: b :: c :: _ => a = b && b = c
  | _ => false

/-- Lines 289-312: choice of the substituted action when a loop is detected:
the first valid action outside the recent actions and the failure table; with
no such entry (or no valid-actions list), pop the next unexplored direction;
else the "look" fallback. -/
def loopOverride (validActions : List Str) (failed : List (Str × Nat))
    (recent : List Str) (unexp : List Str) : Str × List Str :=
  if validActions ≠ [] then
    match validActions.find? (fun v => !(recent.contains v) && !(hasKey failed v)) with
    | some v => (v, unexp)
    | none =>
      match unexp with
      | d :: rest => (d, rest)
      | [] => (str "look", unexp)
  else
    match unexp with
    | d :: rest => (d, rest)
    | [] => (str "look", unexp)

/-- Lines 278-313 (without the `action` local assignment): append the action,
trim to five, and on a detected loop override the arguments with the
substituted action and append it as well.  Returns the state, the dispatched
arguments and the dispatched action. -/
def playSection (st : AgentState) (args : JVal) (action : Str) : AgentState × JVal × Str :=
  let recent1 := trim5 (st.recentActions ++ [action])
  if lastThreeSame recent1 then
    let (a2, u2) := loopOverride st.validActions st.failedActions recent1 st.unexploredDirections
    ({ st with recentActions := recent1 ++ [a2], unexploredDirections := u2 },
     JVal.jobj [(str "action", .jstr a2)], a2)
  else
    ({ st with recentActions := recent1 }, args, action)

/-- The failure-phrase lexicon (lines 359-361). -/
def failurePhrases : List Str :=
  [str "can't", str "cannot", str "don't", str "not", str "fail", str "impossible",
   str "doesn't work", str "not allowed", str "not know which way",
   str "get in big trouble", str "look dark"]

/-- Line 362: some failure phrase occurs in the lower-cased observation. -/
def matchesFailure (obs : Str) : Bool := failurePhrases.any (fun p => hasSub p (lowerL obs))

/-- Lines 370-402: append the turn to the in-memory history, trim it to the
last 10 entries, re-run the score update, and record the run-local history
triple. -/
def postTail (st : AgentState) (rl : RunLocals) (stepIdx : Nat) (thought : Str)
    (toolName : Str) (args : JVal) (obs : Str) : AgentState × RunLocals :=
  let entry : HistEntry :=
    { step := stepIdx, thought := thought, tool := toolName, args := args,
      result := obs.take 200, location := rl.location, score := st.score }
  let hist1 := st.history ++ [entry]
  let hist2 := if 10 < hist1.length then hist1.drop (hist1.length - 10) else hist1
  ({ st with history := hist2, score := updateScore st.score obs },
   { rl with resultHistory := rl.resultHistory ++ [(thought, toolName, args, obs.take 100)] })

/-- Lines 333-402: post-dispatch state updates.  Progress resets
`steps_since_progress` and (on a brand-new location) reseeds the unexplored
directions and schedules a valid-actions refresh; otherwise the counter is
incremented and, when the observation matches a failure phrase, the failure
count of the Python local `action` is bumped (a `NameError` if that local was
never assigned).  `dispatchedOpt` carries `tool_args.get("action", "look")`
for play-action turns. -/
def postDispatch (st : AgentState) (rl : RunLocals) (stepIdx : Nat) (thought : Str)
    (toolName : Str) (args : JVal) (dispatchedOpt : Option Str) (obs : Str) :
    Except Str (AgentState × RunLocals) :=
  let newLocation := extractLocA obs
  let oldScore := st.score
  let st1 := { st with score := updateScore st.score obs }
  if newLocation ≠ rl.location ∨ oldScore < st1.score then
    let st2 := { st1 with stepsSinceProgress := 0 }
    let (st3, rl3) :=
      if newLocation ≠ rl.location then
        let rl2 := { rl with location := newLocation,
                             locationsVisited := addSet rl.locationsVisited newLocation }
        if st2.locationsExplored.contains newLocation then (st2, rl2)
        else ({ st2 with locationsExplored := st2.locationsExplored ++ [newLocation],
                         unexploredDirections := sixDirs,
                         stepsSinceValidCheck := 999 }, rl2)
      else (st2, rl)
    .ok (postTail st3 rl3 stepIdx thought toolName args obs)
  else
    let st2 := { st1 with stepsSinceProgress := st.stepsSinceProgress + 1 }
    let rl2 :=
      match if toolName = str "play_action" then dispatchedOpt else none with
      | some a => { rl with actionVar := some a }
      | none => rl
    if matchesFailure obs then
      match rl2.actionVar with
      | none => .error (str "NameError")
      | some a =>
        .ok (postTail { st2 with failedActions := bumpCount st2.failedActions a } rl2
              stepIdx thought toolName args obs)
    else .ok (postTail st2 rl2 stepIdx thought toolName args obs)

/-- Python dict item assignment `tool_args["action"] = action` (line 587). -/
def setKey (l : List (Str × JVal)) (k : Str) (v : JVal) : List (Str × JVal) :=
  if l.any (fun p => p.1 = k) then l.map (fun p => if p.1 = k then (k, v) else p)
  else l ++ [(k, v)]

/-- Lines 528-589: `_validate_tool_call` on the parsed decision: tool-name
fixing, then for play-action operations the action extraction and
normalisation.  A non-dict `tool_args` (`.get` on it) or a non-string action
value (`.lower()` on it) raises. -/
def validateToolCall (validTools : List Str) (st : AgentState) (toolName0 : Str)
    (args0 : JVal) : Except Str (AgentState × Str × JVal × Option Str) :=
  let toolName := fixToolName validTools toolName0
  if toolName = str "play_action" then
    match args0 with
    | .jobj l =>
      match jlookup l (str "action") with
      | some (.jstr a0) =>
        let (a1, u1) := validateAction st.validActions st.failedActions st.unexploredDirections a0
        .ok ({ st with unexploredDirections := u1 }, toolName,
             JVal.jobj (setKey l (str "action") (.jstr a1)), some a1)
      | none =>
        let (a1, u1) := validateAction st.validActions st.failedActions st.unexploredDirections (str "look")
        .ok ({ st with unexploredDirections := u1 }, toolName,
             JVal.jobj (setKey l (str "action") (.jstr a1)), some a1)
      | some _ => .error (str "AttributeError")
    | _ => .error (str "AttributeError")
  else .ok (st, toolName, args0, none)

/-- Line 279: `tool_args.get("action", "look")` on the validated arguments
(the key is always present after validation, so the default never fires). -/
def actionOf (actionOpt : Option Str) : Str :=
  match actionOpt with
  | some a => a
  | none => str "look"

/-- The tail of one loop iteration after `_validate_tool_call` (lines
278-408): the play-action loop handling, the dispatch with its per-turn
try/except, the inventory special case, the post-dispatch updates and the
game-over test. -/
def turnTail (st : AgentState) (rl : RunLocals) (stepIdx : Nat)
    (thought toolName : Str) (args1 : JVal) (actionOpt : Option Str)
    (dispatchR : Except Str Str) : Except Str (AgentState × RunLocals × Bool) :=
  let (stD, rlD, args2, dispatchedOpt) :=
    if toolName = str "play_action" then
      let action := actionOf actionOpt
      let rl2 := { rl with actionVar := some action, moves := rl.moves + 1 }
      let (st2, a2, d2) := playSection st args1 action
      (st2, rl2, a2, some d2)
    else (st, rl, args1, none)
  let (obs, stE) :=
    match dispatchR with
    | .ok t =>
      (t, if toolName = str "inventory" then
            { stD with currentInventory := parseInventory t }
          else stD)
    | .error e => (str "Error: " ++ e, stD)
  let rlE := { rlD with observation := obs }
  match postDispatch stE rlE stepIdx thought toolName args2 dispatchedOpt obs with
  | .error e => .error e
  | .ok (stF, rlF) => .ok (stF, rlF, isGameOver obs)

/-- One iteration of the main ReAct loop (lines 233-408), as a function of the
turn's external-collaborator results.  The returned Bool is the line-405
game-over test on the turn's observation; `Except.error` models an uncaught
exception aborting `run`. -/
def turn (validTools : List Str) (st : AgentState) (rl : RunLocals) (stepIdx : Nat)
    (inp : TurnInputs) : Except Str (AgentState × RunLocals × Bool) :=
  match mapSection st inp with
  | .error e => .error e
  | .ok stA =>
    let stB := validSection stA inp
    match inp.llmResult with
    | .error e => .error e
    | .ok response =>
      match parseResponse response with
      | .error e => .error e
      | .ok (thought, toolName0, args0) =>
        match validateToolCall validTools stB toolName0 args0 with
        | .error e => .error e
        | .ok (stC, toolName, args1, actionOpt) =>
          turnTail stC rl stepIdx thought toolName args1 actionOpt inp.dispatchResult

/-- The main loop (lines 233-408) over a list of per-turn collaborator
results; the list length is the remaining step budget.  Returns the final
state and locals together with the number of turns executed. -/
def runLoop (validTools : List Str) (st : AgentState) (rl : RunLocals) (stepIdx : Nat) :
    List TurnInputs → Except Str (AgentState × RunLocals × Nat)
  | [] => .ok (st, rl, 0)
  | inp :: rest =>
    match turn validTools st rl stepIdx inp with
    | .error e => .error e
    | .ok (st2, rl2, done) =>
      if done then .ok (st2, rl2, 1)
      else
        match runLoop validTools st2 rl2 (stepIdx + 1) rest with
        | .error e => .error e
        | .ok (st3, rl3, n) => .ok (st3, rl3, n + 1)

/-!  The exploration tracker of the MCP server
(`src/hamonk_agent/mcp_server.py`, class `GameState`).  The wrapped Jericho
environment is external, so `take_action` is modelled as a function of the
observation text the environment returns. -/

/-- The movement-class actions (mcp_server.py lines 103-104). -/
def movementActions : List Str :=
  [str "north", str "south", str "east", str "west", str "up", str "down",
   str "enter", str "exit", str "n", str "s", str "e", str "w", str "u", str "d"]

/-- mcp_server.py lines 49-52: `_extract_location` — the first line of the
stripped observation. -/
def extractLocS (obs : Str) : Str :=
  match splitNL (stripL obs) with
  | [] => str "Unknown"
  | l :: _ => l

/-- The exploration-relevant state of `GameState` (mcp_server.py lines 29-122). -/
structure GameSt where
  currentLocation : Str
  exploredLocations : List (Str × List Str)
  history : List (Str × Str)

/-- Edge set of a location in the exploration graph (`none`: not a key). -/
def lookupEdges (g : List (Str × List Str)) (loc : Str) : Option (List Str) :=
  (g.find? (fun p => p.1 = loc)).map (·.2)

/-- Add an edge to a location's edge set (`set.add`: no duplicates). -/
def addEdge (g : List (Str × List Str)) (loc : Str) (e : Str) : List (Str × List Str) :=
  g.map (fun p => if p.1 = loc then (p.1, addSet p.2 e) else p)

/-- The edge descriptor f-string `f"{action} -> {new_location}"`. -/
def edgeStr (action newLoc : Str) : Str := action ++ str " -> " ++ newLoc

/-- mcp_server.py lines 88-122: `take_action` as a function of the action and
the observation the environment returns for it (event logging is I/O and out
of scope; the score/moves live in the external environment state). -/
def takeAction (g : GameSt) (action : Str) (result : Str) : GameSt :=
  let hist1 := g.history ++ [(action, result)]
  let hist2 := if 50 < hist1.length then hist1.drop (hist1.length - 50) else hist1
  let newLocation := extractLocS result
  let explored1 :=
    if movementActions.contains action then
      let e0 :=
        if g.exploredLocations.any (fun p => p.1 = g.currentLocation) then g.exploredLocations
        else g.exploredLocations ++ [(g.currentLocation, [])]
      if newLocation ≠ g.currentLocation then
        addEdge e0 g.currentLocation (edgeStr action newLocation)
      else e0
    else g.exploredLocations
  { currentLocation := newLocation, exploredLocations := explored1, history := hist2 }

/-!  Helper lemmas shared by several claim theorems. -/

theorem addSet_subset (l : List Str) (x : Str) : l ⊆ addSet l x := by
  unfold addSet; split
  · exact fun a h => h
  · exact fun a h => List.mem_append_left _ h

theorem addSet_count_self (l : List Str) (x : Str) (h : l.count x ≤ 1) :
    (addSet l x).count x = 1 := by
  unfold addSet
  split
  · rename_i hc
    have hm : x ∈ l := by simpa [List.contains, List.elem_iff] using hc
    have : 0 < l.count x := List.count_pos_iff.mpr hm
    omega
  · rename_i hc
    have hm : x ∉ l := by simpa [List.contains, List.elem_iff] using hc
    have h0 : l.count x = 0 := List.count_eq_zero.mpr hm
    simp [List.count_append, h0]

/-- The keys of the exploration graph, in insertion order. -/
def graphKeys (g : List (Str × List Str)) : List Str := g.map (·.1)

theorem graphKeys_addEdge (g : List (Str × List Str)) (l : Str) (e : Str) :
    graphKeys (addEdge g l e) = graphKeys g := by
  unfold graphKeys addEdge
  induction g with
  | nil => rfl
  | cons p t ih =>
    simp only [List.map_cons]
    split <;> simp_all

theorem find?_map_keyfix {α : Type} (f : α → α) (q : α → Bool) (hf : ∀ p, q (f p) = q p)
    (t : List α) : List.find? q (t.map f) = (List.find? q t).map f := by
  induction t with
  | nil => rfl
  | cons p t ih =>
    simp only [List.map_cons, List.find?_cons, hf]
    cases hq : q p <;> simp [hq, ih]

theorem lookupEdges_addEdge (g : List (Str × List Str)) (l : Str) (e : Str) (k : Str) :
    lookupEdges (addEdge g l e) k =
      (lookupEdges g k).map (fun es => if k = l then addSet es e else es) := by
  unfold lookupEdges addEdge
  rw [find?_map_keyfix (fun p => if p.1 = l then (p.1, addSet p.2 e) else p)
        (fun p => decide (p.1 = k)) (fun p => by by_cases h : p.1 = l <;> simp [h])]
  cases hf : List.find? (fun p => decide (p.1 = k)) g with
  | none => rfl
  | some p =>
    have hp : p.1 = k := by simpa using List.find?_some hf
    by_cases h : k = l <;> simp [Option.map, hp, h]

theorem lookupEdges_append_new (g : List (Str × List Str)) (l : Str) (k : Str) :
    lookupEdges (g ++ [(l, [])]) k =
      match lookupEdges g k with
      | some es => some es
      | none => if l = k then some [] else none := by
  unfold lookupEdges
  induction g with
  | nil => by_cases h : l = k <;> simp [List.find?_cons, h]
  | cons p t ih =>
    by_cases hk : p.1 = k
    · simp [List.find?_cons, hk]
    · simp only [List.cons_append, List.find?_cons, hk]
      simpa [hk] using ih

theorem any_key_iff (g : List (Str × List Str)) (k : Str) :
    g.any (fun p => p.1 = k) = true ↔ k ∈ graphKeys g := by
  simp only [graphKeys, List.any_eq_true, List.mem_map, decide_eq_true_eq]

theorem updateScore_eq (score : Nat) (text : Str) :
    updateScore score text =
      max score (max ((findScore1 text).getD 0)
        (max ((findScore2 text).getD 0) ((findScore3 text).getD 0))) := by
  unfold updateScore
  cases findScore1 text <;> cases findScore2 text <;> cases findScore3 text <;>
    simp [Nat.max_assoc]

theorem postTail_ssp (st : AgentState) (rl : RunLocals) (i : Nat) (t n : Str) (a : JVal)
    (obs : Str) : (postTail st rl i t n a obs).1.stepsSinceProgress = st.stepsSinceProgress := rfl

theorem postTail_unexp (st : AgentState) (rl : RunLocals) (i : Nat) (t n : Str) (a : JVal)
    (obs : Str) :
    (postTail st rl i t n a obs).1.unexploredDirections = st.unexploredDirections := rfl

theorem postTail_svc (st : AgentState) (rl : RunLocals) (i : Nat) (t n : Str) (a : JVal)
    (obs : Str) :
    (postTail st rl i t n a obs).1.stepsSinceValidCheck = st.stepsSinceValidCheck := rfl

theorem postTail_recent (st : AgentState) (rl : RunLocals) (i : Nat) (t n : Str) (a : JVal)
    (obs : Str) : (postTail st rl i t n a obs).1.recentActions = st.recentActions := rfl

theorem postTail_failed (st : AgentState) (rl : RunLocals) (i : Nat) (t n : Str) (a : JVal)
    (obs : Str) : (postTail st rl i t n a obs).1.failedActions = st.failedActions := rfl

theorem postTail_obs (st : AgentState) (rl : RunLocals) (i : Nat) (t n : Str) (a : JVal)
    (obs : Str) : (postTail st rl i t n a obs).2.observation = rl.observation := rfl

theorem postTail_hist_le (st : AgentState) (rl : RunLocals) (i : Nat) (t n : Str) (a : JVal)
    (obs : Str) : (postTail st rl i t n a obs).1.history.length ≤ 10 := by
  unfold postTail
  dsimp only
  split <;> rename_i hlen
  · simp only [List.length_drop]
    omega
  · omega

/-- C8: `_update_score` sets the score to the maximum of the current score and
the numbers found by the three case-insensitive score patterns; hence the
score never decreases, and a second invocation on the same text returns the
same state as the first, so the duplicated per-turn call (lines 336 and 399)
is idempotent redundancy. -/
theorem c8_update_score_max_monotone_idempotent (score : Nat) (text : Str) :
    updateScore score text =
      max score (max ((findScore1 text).getD 0)
        (max ((findScore2 text).getD 0) ((findScore3 text).getD 0))) ∧
    score ≤ updateScore score text ∧
    updateScore (updateScore score text) text = updateScore score text := by
  refine ⟨updateScore_eq score text, ?_, ?_⟩
  · rw [updateScore_eq]; exact Nat.le_max_left _ _
  · rw [updateScore_eq score text, updateScore_eq, Nat.max_assoc, Nat.max_self]

/-- C4: progress reset law of the post-dispatch update (lines 333-353): when
the extracted location changed or the score strictly increased,
`steps_since_progress` becomes 0, otherwise its old value plus 1; and on a
never-explored new location the untried-direction list is reseeded with the
six cardinal/vertical directions and an immediate valid-actions refresh is
scheduled (the counter is forced to 999, which meets the `>= 4` refresh
threshold when incremented on the next turn). -/
theorem c4_progress_reset_law (st : AgentState) (rl : RunLocals) (stepIdx : Nat)
    (thought toolName : Str) (args : JVal) (dOpt : Option Str) (obs : Str)
    (st' : AgentState) (rl' : RunLocals)
    (h : postDispatch st rl stepIdx thought toolName args dOpt obs = .ok (st', rl')) :
    (st'.stepsSinceProgress =
      if extractLocA obs ≠ rl.location ∨ st.score < updateScore st.score obs then 0
      else st.stepsSinceProgress + 1) ∧
    ((extractLocA obs ≠ rl.location ∧ st.locationsExplored.contains (extractLocA obs) = false) →
      st'.unexploredDirections = sixDirs ∧ st'.stepsSinceValidCheck = 999 ∧
      4 ≤ st'.stepsSinceValidCheck + 1) := by
  simp only [postDispatch] at h
  split at h
  · rename_i hp
    split at h
    · rename_i hloc
      split at h <;> rename_i hexp <;> injection h with h2 <;>
        have hs := congrArg Prod.fst h2 <;> dsimp only at hs <;> subst hs
      · exact ⟨by rw [postTail_ssp]; simp [hp],
          fun hc => by rw [hc.2] at hexp; exact Bool.noConfusion hexp⟩
      · exact ⟨by rw [postTail_ssp]; simp [hp],
          fun _ => ⟨by rw [postTail_unexp], by rw [postTail_svc],
            by rw [postTail_svc]; show (4 : Nat) ≤ 999 + 1; omega⟩⟩
    · rename_i hloc
      injection h with h2
      have hs := congrArg Prod.fst h2
      dsimp only at hs
      subst hs
      exact ⟨by rw [postTail_ssp]; simp [hp], fun hc => absurd hc.1 hloc⟩
  · rename_i hp
    split at h
    · rename_i hfail
      split at h
      · exact Except.noConfusion h
      · rename_i a hav
        injection h with h2
        have hs := congrArg Prod.fst h2
        dsimp only at hs
        subst hs
        exact ⟨by rw [postTail_ssp]; simp [hp], fun hc => absurd (Or.inl hc.1) hp⟩
    · injection h with h2
      have hs := congrArg Prod.fst h2
      dsimp only at hs
      subst hs
      exact ⟨by rw [postTail_ssp]; simp [hp], fun hc => absurd (Or.inl hc.1) hp⟩

/-- Concrete pre-state for the C4 witness. -/
def c4wSt : AgentState :=
  { history := [], recentActions := [], score := 0, failedActions := [],
    locationsExplored := [str "A"], unexploredDirections := [],
    stepsSinceMapCheck := 0, stepsSinceProgress := 7, validActions := [],
    stepsSinceValidCheck := 2, currentMap := none, currentInventory := [] }

/-- Concrete run-locals for the C4 witness. -/
def c4wRl : RunLocals :=
  { location := str "A", locationsVisited := [str "A"], moves := 0,
    observation := str "A", actionVar := none, resultHistory := [] }

/-- Concrete observation for the C4 witness. -/
def c4wObs : Str := str "B\nsome text"

/-- The result of the C4 witness turn. -/
def c4wRes : AgentState × RunLocals :=
  match postDispatch c4wSt c4wRl 1 (str "t") (str "memory") (.jobj []) none c4wObs with
  | .ok p => p
  | .error _ => (c4wSt, c4wRl)

/-- Witness for C4 at a concrete turn entering a brand-new location. -/
theorem c4_progress_reset_law_witness :
    postDispatch c4wSt c4wRl 1 (str "t") (str "memory") (.jobj []) none c4wObs =
      .ok (c4wRes.1, c4wRes.2) ∧
    ((c4wRes.1.stepsSinceProgress =
      if extractLocA c4wObs ≠ c4wRl.location ∨ c4wSt.score < updateScore c4wSt.score c4wObs then 0
      else c4wSt.stepsSinceProgress + 1) ∧
    ((extractLocA c4wObs ≠ c4wRl.location ∧
        c4wSt.locationsExplored.contains (extractLocA c4wObs) = false) →
      c4wRes.1.unexploredDirections = sixDirs ∧ c4wRes.1.stepsSinceValidCheck = 999 ∧
      4 ≤ c4wRes.1.stepsSinceValidCheck + 1)) :=
  ⟨by rfl,
   c4_progress_reset_law c4wSt c4wRl 1 (str "t") (str "memory") (.jobj []) none c4wObs
     c4wRes.1 c4wRes.2 (by rfl)⟩

/-- Concrete initial server state for the C6 counterexample. -/
def c6g0 : GameSt :=
  { currentLocation := str "West of House", exploredLocations := [], history := [] }

/-- C6 counterexample: the claim says a location enters the graph exactly
once, on its first observation.  In the code the start location "West of
House" is observed at initialisation and re-observed after the non-movement
action "look", yet `explored_locations` is still empty; the location enters
the graph only when the movement action "north" is later taken from it.  So
entry happens on the first movement-class action taken from a location, not
on its first observation. -/
theorem c6_counterexample :
    (takeAction c6g0 (str "look")
      (str "West of House\nYou are standing in an open field.")).exploredLocations = [] ∧
    (takeAction (takeAction c6g0 (str "look")
        (str "West of House\nYou are standing in an open field."))
      (str "north") (str "North of House")).exploredLocations =
      [(str "West of House", [edgeStr (str "north") (str "North of House")])] :=
  ⟨rfl, rfl⟩

theorem lookupEdges_eq_none (g : List (Str × List Str)) (k : Str)
    (h : g.any (fun p => p.1 = k) = false) : lookupEdges g k = none := by
  unfold lookupEdges
  have hf : List.find? (fun p => decide (p.1 = k)) g = none := by
    rw [List.find?_eq_none]
    intro p hp
    simp only [decide_eq_true_eq]
    intro he
    have hh : g.any (fun q => q.1 = k) = true := by
      simp only [List.any_eq_true, decide_eq_true_eq]
      exact ⟨p, hp, he⟩
    rw [hh] at h
    exact Bool.noConfusion h
  rw [hf]
  rfl

theorem lookupEdges_isSome (g : List (Str × List Str)) (k : Str)
    (h : g.any (fun p => p.1 = k) = true) : ∃ es, lookupEdges g k = some es := by
  unfold lookupEdges
  cases hf : List.find? (fun p => decide (p.1 = k)) g with
  | some q => exact ⟨q.2, rfl⟩
  | none =>
    rw [List.find?_eq_none] at hf
    simp only [List.any_eq_true, decide_eq_true_eq] at h
    obtain ⟨p, hp, he⟩ := h
    exact absurd (by simp [he]) (hf p hp)

theorem graphKeys_append (g : List (Str × List Str)) (l : Str) (es : List Str) :
    graphKeys (g ++ [(l, es)]) = graphKeys g ++ [l] := by
  simp [graphKeys]

/-- C6 amended: over any `take_action` call, a location is keyed into the
exploration graph exactly when a movement-class action is taken while it is
the current location and it is not yet a key (hence at most once — keys stay
duplicate-free); every existing edge set only grows and no key is ever
removed; a non-movement action leaves the graph literally unchanged; a
movement action whose extracted location-hint did not change adds no edge
(at most the fresh empty key for the current location); and a movement
action with a changed hint modifies exactly the previous location's edge
set, by set-inserting the single descriptor `action -> new_location`. -/
theorem c6_graph_growth (g : GameSt) (a obs : Str)
    (hnd : (graphKeys g.exploredLocations).Nodup) :
    (graphKeys (takeAction g a obs).exploredLocations =
      if movementActions.contains a = true ∧
          g.exploredLocations.any (fun p => p.1 = g.currentLocation) = false
      then graphKeys g.exploredLocations ++ [g.currentLocation]
      else graphKeys g.exploredLocations) ∧
    (∀ k es, lookupEdges g.exploredLocations k = some es →
      ∃ es', lookupEdges (takeAction g a obs).exploredLocations k = some es' ∧ es ⊆ es') ∧
    (graphKeys (takeAction g a obs).exploredLocations).Nodup ∧
    (movementActions.contains a = false →
      (takeAction g a obs).exploredLocations = g.exploredLocations) ∧
    (movementActions.contains a = true → extractLocS obs = g.currentLocation →
      ∀ k, lookupEdges (takeAction g a obs).exploredLocations k =
        if lookupEdges g.exploredLocations k = none ∧ k = g.currentLocation
        then some [] else lookupEdges g.exploredLocations k) ∧
    (movementActions.contains a = true → extractLocS obs ≠ g.currentLocation →
      (∀ k, k ≠ g.currentLocation →
        lookupEdges (takeAction g a obs).exploredLocations k =
          lookupEdges g.exploredLocations k) ∧
      lookupEdges (takeAction g a obs).exploredLocations g.currentLocation =
        some (addSet ((lookupEdges g.exploredLocations g.currentLocation).getD [])
          (edgeStr a (extractLocS obs)))) := by
  have htake : (takeAction g a obs).exploredLocations =
      (if movementActions.contains a then
        (if extractLocS obs ≠ g.currentLocation then
          addEdge (if g.exploredLocations.any (fun p => p.1 = g.currentLocation) then
              g.exploredLocations
            else g.exploredLocations ++ [(g.currentLocation, [])])
            g.currentLocation (edgeStr a (extractLocS obs))
        else
          (if g.exploredLocations.any (fun p => p.1 = g.currentLocation) then
              g.exploredLocations
            else g.exploredLocations ++ [(g.currentLocation, [])]))
      else g.exploredLocations) := rfl
  by_cases hm : movementActions.contains a = true
  · by_cases hk : g.exploredLocations.any (fun p => p.1 = g.currentLocation) = true
    · by_cases hchg : extractLocS obs ≠ g.currentLocation
      · rw [htake, if_pos hm, if_pos hchg, if_pos hk]
        refine ⟨?_, ?_, ?_, ?_, ?_, ?_⟩
        · rw [graphKeys_addEdge, if_neg (fun hc => by rw [hc.2] at hk; exact Bool.noConfusion hk)]
        · intro k es hes
          rw [lookupEdges_addEdge, hes]
          by_cases hkl : k = g.currentLocation <;> simp [hkl, addSet_subset]
        · rw [graphKeys_addEdge]; exact hnd
        · intro h4
          exact absurd (h4 ▸ hm) (by decide)
        · intro _ h5
          exact absurd h5 hchg
        · refine fun _ _ => ⟨?_, ?_⟩
          · intro k hkl
            rw [lookupEdges_addEdge]
            cases hke : lookupEdges g.exploredLocations k <;> simp [hkl]
          · obtain ⟨es0, hes0⟩ := lookupEdges_isSome _ _ hk
            rw [lookupEdges_addEdge, hes0]
            simp
      · rw [htake, if_pos hm, if_neg hchg, if_pos hk]
        refine ⟨?_, ?_, hnd, ?_, ?_, ?_⟩
        · rw [if_neg (fun hc => by rw [hc.2] at hk; exact Bool.noConfusion hk)]
        · exact fun k es hes => ⟨es, hes, fun x hx => hx⟩
        · intro h4
          exact absurd (h4 ▸ hm) (by decide)
        · intro _ _ k
          cases hke : lookupEdges g.exploredLocations k with
          | some es =>
            rw [if_neg (fun hc => Option.noConfusion hc.1)]
          | none =>
            by_cases hkc : k = g.currentLocation
            · exfalso
              obtain ⟨es0, hes0⟩ := lookupEdges_isSome _ _ hk
              rw [hkc] at hke
              exact Option.noConfusion (hke.symm.trans hes0)
            · rw [if_neg (fun hc => hkc hc.2)]
        · intro _ h6
          exact absurd (not_not.mp hchg) h6
    · have hk' : g.exploredLocations.any (fun p => p.1 = g.currentLocation) = false :=
        Bool.eq_false_iff.mpr hk
      have hnotmem : g.currentLocation ∉ graphKeys g.exploredLocations := by
        intro hmem
        rw [← any_key_iff] at hmem
        rw [hmem] at hk'
        exact Bool.noConfusion hk'
      by_cases hchg : extractLocS obs ≠ g.currentLocation
      · rw [htake, if_pos hm, if_pos hchg, if_neg (by simp [hk'])]
        refine ⟨?_, ?_, ?_, ?_, ?_, ?_⟩
        · rw [graphKeys_addEdge, graphKeys_append, if_pos ⟨hm, hk'⟩]
        · intro k es hes
          rw [lookupEdges_addEdge, lookupEdges_append_new, hes]
          by_cases hkl : k = g.currentLocation <;> simp [hkl, addSet_subset]
        · rw [graphKeys_addEdge, graphKeys_append, List.nodup_append]
          exact ⟨hnd, List.nodup_singleton _,
            fun x hx hxl => by simp only [List.mem_singleton] at hxl; exact hnotmem (hxl ▸ hx)⟩
        · intro h4
          exact absurd (h4 ▸ hm) (by decide)
        · intro _ h5
          exact absurd h5 hchg
        · refine fun _ _ => ⟨?_, ?_⟩
          · intro k hkl
            rw [lookupEdges_addEdge, lookupEdges_append_new]
            cases hke : lookupEdges g.exploredLocations k with
            | some es =>
              dsimp only
              simp [hkl]
            | none =>
              dsimp only
              rw [if_neg (fun hc => hkl hc.symm)]
              rfl
          · rw [lookupEdges_addEdge, lookupEdges_append_new,
              lookupEdges_eq_none g.exploredLocations g.currentLocation hk']
            dsimp only
            rw [if_pos rfl]
            simp
      · rw [htake, if_pos hm, if_neg hchg, if_neg (by simp [hk'])]
        refine ⟨?_, ?_, ?_, ?_, ?_, ?_⟩
        · rw [graphKeys_append, if_pos ⟨hm, hk'⟩]
        · intro k es hes
          rw [lookupEdges_append_new, hes]
          exact ⟨es, rfl, fun x hx => hx⟩
        · rw [graphKeys_append, List.nodup_append]
          exact ⟨hnd, List.nodup_singleton _,
            fun x hx hxl => by simp only [List.mem_singleton] at hxl; exact hnotmem (hxl ▸ hx)⟩
        · intro h4
          exact absurd (h4 ▸ hm) (by decide)
        · intro _ _ k
          rw [lookupEdges_append_new]
          cases hke : lookupEdges g.exploredLocations k with
          | some es =>
            dsimp only
            rw [if_neg (fun hc => Option.noConfusion hc.1)]
          | none =>
            by_cases hkc : k = g.currentLocation
            · dsimp only
              rw [if_pos hkc.symm, if_pos ⟨rfl, hkc⟩]
            · dsimp only
              rw [if_neg (fun hc => hkc hc.symm), if_neg (fun hc => hkc hc.2)]
        · intro _ h6
          exact absurd (not_not.mp hchg) h6
  · rw [htake, if_neg hm]
    refine ⟨?_, ?_, hnd, ?_, ?_, ?_⟩
    · rw [if_neg (fun hc => hm hc.1)]
    · exact fun k es hes => ⟨es, hes, fun x hx => hx⟩
    · exact fun _ => rfl
    · exact fun h5 => absurd h5 hm
    · exact fun h6 => absurd h6 hm

/-- Witness for C6 at a concrete movement step out of a fresh location. -/
theorem c6_graph_growth_witness :
    (graphKeys c6g0.exploredLocations).Nodup ∧
    ((graphKeys (takeAction c6g0 (str "north") (str "North of House")).exploredLocations =
      if movementActions.contains (str "north") = true ∧
          c6g0.exploredLocations.any (fun p => p.1 = c6g0.currentLocation) = false
      then graphKeys c6g0.exploredLocations ++ [c6g0.currentLocation]
      else graphKeys c6g0.exploredLocations) ∧
    (∀ k es, lookupEdges c6g0.exploredLocations k = some es →
      ∃ es', lookupEdges (takeAction c6g0 (str "north")
          (str "North of House")).exploredLocations k = some es' ∧ es ⊆ es') ∧
    (graphKeys (takeAction c6g0 (str "north") (str "North of House")).exploredLocations).Nodup ∧
    (movementActions.contains (str "north") = false →
      (takeAction c6g0 (str "north") (str "North of House")).exploredLocations =
        c6g0.exploredLocations) ∧
    (movementActions.contains (str "north") = true →
      extractLocS (str "North of House") = c6g0.currentLocation →
      ∀ k, lookupEdges (takeAction c6g0 (str "north")
          (str "North of House")).exploredLocations k =
        if lookupEdges c6g0.exploredLocations k = none ∧ k = c6g0.currentLocation
        then some [] else lookupEdges c6g0.exploredLocations k) ∧
    (movementActions.contains (str "north") = true →
      extractLocS (str "North of House") ≠ c6g0.currentLocation →
      (∀ k, k ≠ c6g0.currentLocation →
        lookupEdges (takeAction c6g0 (str "north")
            (str "North of House")).exploredLocations k =
          lookupEdges c6g0.exploredLocations k) ∧
      lookupEdges (takeAction c6g0 (str "north")
          (str "North of House")).exploredLocations c6g0.currentLocation =
        some (addSet ((lookupEdges c6g0.exploredLocations c6g0.currentLocation).getD [])
          (edgeStr (str "north") (extractLocS (str "North of House")))))) :=
  ⟨by simp [c6g0, graphKeys],
   c6_graph_growth c6g0 (str "north") (str "North of House") (by simp [c6g0, graphKeys])⟩

theorem takeAction_explored (g : GameSt) (a obs : Str)
    (hm : movementActions.contains a = true) (hne : extractLocS obs ≠ g.currentLocation) :
    (takeAction g a obs).exploredLocations =
      addEdge (if g.exploredLocations.any (fun p => p.1 = g.currentLocation) then
          g.exploredLocations
        else g.exploredLocations ++ [(g.currentLocation, [])])
        g.currentLocation (edgeStr a (extractLocS obs)) := by
  have h : (takeAction g a obs).exploredLocations =
      (if movementActions.contains a then
        (if extractLocS obs ≠ g.currentLocation then
          addEdge (if g.exploredLocations.any (fun p => p.1 = g.currentLocation) then
              g.exploredLocations
            else g.exploredLocations ++ [(g.currentLocation, [])])
            g.currentLocation (edgeStr a (extractLocS obs))
        else
          (if g.exploredLocations.any (fun p => p.1 = g.currentLocation) then
              g.exploredLocations
            else g.exploredLocations ++ [(g.currentLocation, [])]))
      else g.exploredLocations) := rfl
  rw [h, if_pos hm, if_pos hne]

/-- C7: observing the same (location, action, resulting-location) triple twice
leaves exactly one instance of the edge descriptor in that location's edge
set: the edge collection has set semantics, not multiset semantics.  The
hypothesis `hcount` is the standing set invariant (no duplicated edge entry in
the pre-state, as Python's `set` type guarantees). -/
theorem c7_edge_idempotent (g : GameSt) (a obs : Str)
    (hm : movementActions.contains a = true)
    (hne : extractLocS obs ≠ g.currentLocation)
    (hcount : ∀ es, lookupEdges g.exploredLocations g.currentLocation = some es →
      es.count (edgeStr a (extractLocS obs)) ≤ 1) :
    ∃ es, lookupEdges (takeAction
        { takeAction g a obs with currentLocation := g.currentLocation }
        a obs).exploredLocations g.currentLocation = some es ∧
      es.count (edgeStr a (extractLocS obs)) = 1 := by
  have hA := takeAction_explored g a obs hm hne
  have hB := takeAction_explored { takeAction g a obs with currentLocation := g.currentLocation }
    a obs hm hne
  dsimp only at hB
  by_cases hk : g.exploredLocations.any (fun p => p.1 = g.currentLocation) = true
  · obtain ⟨es0, hes0⟩ := lookupEdges_isSome _ _ hk
    have hE1 : (takeAction g a obs).exploredLocations =
        addEdge g.exploredLocations g.currentLocation (edgeStr a (extractLocS obs)) := by
      rw [hA, if_pos hk]
    have hany1 : (addEdge g.exploredLocations g.currentLocation
        (edgeStr a (extractLocS obs))).any (fun p => p.1 = g.currentLocation) = true := by
      rw [any_key_iff, graphKeys_addEdge, ← any_key_iff]
      exact hk
    rw [hB, hE1, if_pos hany1, lookupEdges_addEdge, lookupEdges_addEdge, hes0]
    refine ⟨addSet (addSet es0 (edgeStr a (extractLocS obs))) (edgeStr a (extractLocS obs)),
      by simp, ?_⟩
    have h1 := addSet_count_self es0 (edgeStr a (extractLocS obs)) (hcount es0 hes0)
    exact addSet_count_self _ _ (by omega)
  · have hk' : g.exploredLocations.any (fun p => p.1 = g.currentLocation) = false :=
      Bool.eq_false_iff.mpr hk
    have hnone := lookupEdges_eq_none _ _ hk'
    have hE1 : (takeAction g a obs).exploredLocations =
        addEdge (g.exploredLocations ++ [(g.currentLocation, [])]) g.currentLocation
          (edgeStr a (extractLocS obs)) := by
      rw [hA, if_neg (by simp [hk'])]
    have hnew : lookupEdges (g.exploredLocations ++ [(g.currentLocation, [])])
        g.currentLocation = some [] := by
      rw [lookupEdges_append_new, hnone]
      simp
    have hany1 : (addEdge (g.exploredLocations ++ [(g.currentLocation, [])]) g.currentLocation
        (edgeStr a (extractLocS obs))).any (fun p => p.1 = g.currentLocation) = true := by
      rw [any_key_iff, graphKeys_addEdge, graphKeys_append]
      simp
    rw [hB, hE1, if_pos hany1, lookupEdges_addEdge, lookupEdges_addEdge, hnew]
    refine ⟨addSet (addSet [] (edgeStr a (extractLocS obs))) (edgeStr a (extractLocS obs)),
      by simp, ?_⟩
    have h1 := addSet_count_self [] (edgeStr a (extractLocS obs)) (by simp)
    exact addSet_count_self _ _ (by omega)

/-- Witness for C7 at a concrete repeated observation. -/
theorem c7_edge_idempotent_witness :
    movementActions.contains (str "north") = true ∧
    extractLocS (str "North of House") ≠ c6g0.currentLocation ∧
    (∃ es, lookupEdges (takeAction
        { takeAction c6g0 (str "north") (str "North of House") with
            currentLocation := c6g0.currentLocation }
        (str "north") (str "North of House")).exploredLocations c6g0.currentLocation = some es ∧
      es.count (edgeStr (str "north") (str "North of House")) = 1) :=
  ⟨by decide, by decide,
   c7_edge_idempotent c6g0 (str "north") (str "North of House") (by decide) (by decide)
     (fun es hes => by simp [c6g0, lookupEdges] at hes)⟩

/-!  Lemmas about words and joining, used for the normalizer claim. -/

theorem splitBy_ne_nil (p : Char → Bool) (s : Str) : splitBy p s ≠ [] := by
  cases s with
  | nil => simp [splitBy]
  | cons c cs =>
    rw [show splitBy p (c :: cs) = (match splitBy p cs with
        | [] => [[]]
        | h :: t => if p c then [] :: h :: t else (c :: h) :: t) from rfl]
    cases splitBy p cs with
    | nil => simp
    | cons h t => by_cases hp : p c = true <;> simp [hp]

theorem splitBy_append_nosep (p : Char → Bool) (w s : Str)
    (hw : ∀ c ∈ w, p c = false) :
    splitBy p (w ++ s) =
      (w ++ (splitBy p s).headD []) :: (splitBy p s).tail := by
  induction w with
  | nil =>
    simp only [List.nil_append]
    cases h : splitBy p s with
    | nil => exact absurd h (splitBy_ne_nil p s)
    | cons a t => simp
  | cons c w ih =>
    have hc : p c = false := hw c (by simp)
    have ih' := ih (fun d hd => hw d (by simp [hd]))
    show splitBy p (c :: (w ++ s)) = _
    rw [show splitBy p (c :: (w ++ s)) = (match splitBy p (w ++ s) with
        | [] => [[]]
        | h :: t => if p c then [] :: h :: t else (c :: h) :: t) from rfl, ih']
    simp [hc]

theorem wordsL_joinW (ws : List Str)
    (hws : ∀ w ∈ ws, w ≠ [] ∧ ∀ c ∈ w, isSpaceC c = false) :
    wordsL (joinW ws) = ws := by
  induction ws with
  | nil => rfl
  | cons w rest ih =>
    obtain ⟨hw, hwc⟩ := hws w (by simp)
    have ih' := ih (fun v hv => hws v (by simp [hv]))
    cases rest with
    | nil =>
      have h1 := splitBy_append_nosep isSpaceC w [] hwc
      simp only [List.append_nil, splitBy, List.headD_cons, List.tail_cons] at h1
      show wordsL w = [w]
      unfold wordsL
      rw [h1]
      simp [hw]
    | cons v t =>
      show wordsL (w ++ ' ' :: joinW (v :: t)) = w :: v :: t
      unfold wordsL
      rw [splitBy_append_nosep isSpaceC w (' ' :: joinW (v :: t)) hwc]
      have hsp : splitBy isSpaceC (' ' :: joinW (v :: t)) =
          [] :: splitBy isSpaceC (joinW (v :: t)) := by
        rw [show splitBy isSpaceC (' ' :: joinW (v :: t)) =
            (match splitBy isSpaceC (joinW (v :: t)) with
            | [] => [[]]
            | h :: t2 => if isSpaceC ' ' then [] :: h :: t2 else (' ' :: h) :: t2) from rfl]
        cases h : splitBy isSpaceC (joinW (v :: t)) with
        | nil => exact absurd h (splitBy_ne_nil _ _)
        | cons a t2 => simp [isSpaceC]
      rw [hsp]
      simp only [List.headD_cons, List.tail_cons, List.append_nil, List.filter_cons]
      rw [if_pos (by simpa using hw)]
      unfold wordsL at ih'
      rw [ih']

theorem mem_joinW (ws : List Str) (c : Char) (hc : c ∈ joinW ws) :
    c = ' ' ∨ ∃ w ∈ ws, c ∈ w := by
  induction ws with
  | nil => simp [joinW] at hc
  | cons w rest ih =>
    cases rest with
    | nil =>
      right
      exact ⟨w, by simp, hc⟩
    | cons v t =>
      have : c ∈ w ++ ' ' :: joinW (v :: t) := hc
      rw [List.mem_append] at this
      rcases this with h | h
      · exact Or.inr ⟨w, by simp, h⟩
      · rw [List.mem_cons] at h
        rcases h with h | h
        · exact Or.inl h
        · rcases ih h with h2 | ⟨u, hu, hcu⟩
          · exact Or.inl h2
          · exact Or.inr ⟨u, by simp [hu], hcu⟩

theorem map_eq_self_of_fixed {α : Type} (f : α → α) (l : List α)
    (h : ∀ x ∈ l, f x = x) : l.map f = l := by
  induction l with
  | nil => rfl
  | cons x t ih => simp [h x (by simp), ih (fun y hy => h y (by simp [hy]))]

theorem dropWhile_eq_self_of_all (p : Char → Bool) (s : Str)
    (h : ∀ c ∈ s, p c = false) : s.dropWhile p = s := by
  cases s with
  | nil => rfl
  | cons c cs => simp [List.dropWhile_cons, h c (by simp)]

theorem joinW_ne_nil (w : Str) (ws : List Str) (hw : w ≠ []) : joinW (w :: ws) ≠ [] := by
  cases ws with
  | nil => exact hw
  | cons v t =>
    show w ++ ' ' :: joinW (v :: t) ≠ []
    simp

theorem dropWhile_joinW (ws : List Str)
    (hws : ∀ w ∈ ws, w ≠ [] ∧ ∀ c ∈ w, isSpaceC c = false) :
    (joinW ws).dropWhile isSpaceC = joinW ws := by
  cases ws with
  | nil => rfl
  | cons w rest =>
    obtain ⟨hw, hwc⟩ := hws w (by simp)
    cases w with
    | nil => exact absurd rfl hw
    | cons c cs =>
      have hc : isSpaceC c = false := hwc c (by simp)
      obtain ⟨tail, hjoin⟩ : ∃ tail, joinW ((c :: cs) :: rest) = c :: (cs ++ tail) := by
        cases rest with
        | nil => exact ⟨[], by simp [joinW]⟩
        | cons v t => exact ⟨' ' :: joinW (v :: t), rfl⟩
      rw [hjoin, List.dropWhile_cons]
      simp [hc]

theorem dropWhile_reverse_joinW (ws : List Str)
    (hws : ∀ w ∈ ws, w ≠ [] ∧ ∀ c ∈ w, isSpaceC c = false) :
    (joinW ws).reverse.dropWhile isSpaceC = (joinW ws).reverse := by
  induction ws with
  | nil => rfl
  | cons w rest ih =>
    obtain ⟨hw, hwc⟩ := hws w (by simp)
    cases rest with
    | nil =>
      refine dropWhile_eq_self_of_all _ _ (fun c hc => ?_)
      rw [List.mem_reverse] at hc
      exact hwc c hc
    | cons v t =>
      have ih' := ih (fun u hu => hws u (by simp [hu]))
      have hne : joinW (v :: t) ≠ [] := joinW_ne_nil v t (hws v (by simp)).1
      have hrev : (joinW (w :: v :: t)).reverse =
          ((joinW (v :: t)).reverse ++ [' ']) ++ w.reverse := by
        show (w ++ ' ' :: joinW (v :: t)).reverse = _
        rw [List.reverse_append, List.reverse_cons]
      rw [hrev, List.dropWhile_append]
      have hni : List.dropWhile isSpaceC ((joinW (v :: t)).reverse ++ [' ']) =
          (joinW (v :: t)).reverse ++ [' '] := by
        rw [List.dropWhile_append, ih']
        have hemp : ((joinW (v :: t)).reverse).isEmpty = false := by
          simpa [List.isEmpty_iff] using hne
        simp [hemp]
      rw [hni]
      have hemp2 : (((joinW (v :: t)).reverse ++ [' ']).isEmpty) = false := by simp
      simp [hemp2]

theorem stripL_joinW (ws : List Str)
    (hws : ∀ w ∈ ws, w ≠ [] ∧ ∀ c ∈ w, isSpaceC c = false) :
    stripL (joinW ws) = joinW ws := by
  unfold stripL
  rw [show (fun c => isSpaceC c) = isSpaceC from rfl]
  rw [dropWhile_joinW ws hws, dropWhile_reverse_joinW ws hws, List.reverse_reverse]

/-- The canonical-form hypothesis for C9: every word is non-empty and made of
characters that are non-whitespace, already lower-case, and not decorative
markers. -/
def canonWords (ws : List Str) : Prop :=
  ∀ w ∈ ws, w ≠ [] ∧ ∀ c ∈ w,
    isSpaceC c = false ∧ lowerC c = c ∧ c ≠ '*' ∧ c ≠ backtickC

instance canonWordsDec (ws : List Str) : Decidable (canonWords ws) := by
  unfold canonWords
  exact inferInstance

theorem canonWords_space_free (ws : List Str) (h : canonWords ws) :
    ∀ w ∈ ws, w ≠ [] ∧ ∀ c ∈ w, isSpaceC c = false :=
  fun w hw => ⟨(h w hw).1, fun c hc => ((h w hw).2 c hc).1⟩

theorem lowerL_joinW (ws : List Str) (h : canonWords ws) :
    lowerL (joinW ws) = joinW ws := by
  refine map_eq_self_of_fixed _ _ (fun c hc => ?_)
  rcases mem_joinW ws c hc with h2 | ⟨w, hw, hcw⟩
  · subst h2; decide
  · exact ((h w hw).2 c hcw).2.1

theorem stripMarks_joinW (ws : List Str) (h : canonWords ws) :
    stripMarks (joinW ws) = joinW ws := by
  unfold stripMarks
  rw [List.filter_eq_self]
  intro c hc
  rcases mem_joinW ws c hc with h2 | ⟨w, hw, hcw⟩
  · subst h2; decide
  · have := (h w hw).2 c hcw
    simp [this.2.2.1, this.2.2.2]

theorem lookupPairs_canon (k syn : Str)
    (h : lookupPairs invalidVerbPairs k = some syn) : canonWords [syn] := by
  have hmem : syn ∈ invalidVerbPairs.map (·.2) := by
    unfold lookupPairs at h
    cases hf : List.find? (fun p => decide (p.1 = k)) invalidVerbPairs with
    | none => rw [hf] at h; exact Option.noConfusion h
    | some q =>
      rw [hf] at h
      have hq := List.mem_of_find?_eq_some hf
      simp only [Option.map] at h
      injection h with h
      exact h ▸ List.mem_map_of_mem _ hq
  have hall : ∀ v ∈ invalidVerbPairs.map (·.2), canonWords [v] := by decide
  exact hall syn hmem

/-- C9 counterexample: the claim says the normalised action changes no word
other than the first, yet normalisation lower-cases every word: the action
"check Mailbox" normalises to "examine mailbox", while the claim predicts
"examine Mailbox". -/
theorem c9_counterexample :
    normalizeVerb (str "check Mailbox") = str "examine mailbox" ∧
    normalizeVerb (str "check Mailbox") ≠ str "examine Mailbox" :=
  ⟨by rfl, by decide⟩

/-- C9 amended: for a play-action whose text is a single-space join of
non-empty words that are already lower-case and free of whitespace and
decorative markers, and whose first word is in the forbidden-verb lexicon,
the normalised action's first word is the mapped synonym and no other word
changes.  (On texts outside that canonical form the other words do change:
they are lower-cased, markers are stripped and whitespace is collapsed, as
the counterexample shows.) -/
theorem c9_forbidden_verb_normalisation (w0 : Str) (rest : List Str) (syn : Str)
    (hws : canonWords (w0 :: rest))
    (hsyn : lookupPairs invalidVerbPairs w0 = some syn) :
    normalizeVerb (joinW (w0 :: rest)) = joinW (syn :: rest) := by
  have hsf := canonWords_space_free _ hws
  have hsynCanon := lookupPairs_canon w0 syn hsyn
  have hcanon2 : canonWords (syn :: rest) := by
    intro w hw
    rcases List.mem_cons.mp hw with h | h
    · exact hsynCanon w (by simp [h])
    · exact hws w (by simp [h])
  have hsf2 := canonWords_space_free _ hcanon2
  unfold normalizeVerb
  rw [lowerL_joinW _ hws, wordsL_joinW _ hsf]
  simp only [hsyn]
  unfold collapseWS
  rw [lowerL_joinW _ hcanon2, stripL_joinW _ hsf2, stripMarks_joinW _ hcanon2,
    wordsL_joinW _ hsf2]

/-- Witness for C9 at the concrete canonical action "grab brass lamp". -/
theorem c9_forbidden_verb_normalisation_witness :
    canonWords [str "grab", str "brass", str "lamp"] ∧
    lookupPairs invalidVerbPairs (str "grab") = some (str "take") ∧
    normalizeVerb (joinW [str "grab", str "brass", str "lamp"]) =
      joinW [str "take", str "brass", str "lamp"] :=
  ⟨by decide, by rfl,
   c9_forbidden_verb_normalisation (str "grab") [str "brass", str "lamp"] (str "take")
     (by decide) (by rfl)⟩

/-!  Lemmas about the loop-escape machinery, for C1 and C10. -/

theorem trim5_length (l : List Str) : (trim5 l).length ≤ 5 := by
  unfold trim5
  split <;> rename_i h
  · simp only [List.length_drop]
    omega
  · omega

theorem mem_of_getLast?_eq (l : List Str) (a : Str) (h : l.getLast? = some a) : a ∈ l := by
  induction l with
  | nil => exact Option.noConfusion h
  | cons x t ih =>
    cases t with
    | nil =>
      simp only [List.getLast?_singleton, Option.some.injEq] at h
      simp [h]
    | cons y u =>
      rw [List.getLast?_cons_cons] at h
      exact List.mem_cons_of_mem x (ih h)

theorem trim5_getLast? (l : List Str) : (trim5 l).getLast? = l.getLast? := by
  unfold trim5
  split <;> rename_i h
  · rw [List.getLast?_drop, if_neg (by omega)]
  · rfl

theorem mem_trim5_concat (l : List Str) (a : Str) : a ∈ trim5 (l ++ [a]) := by
  apply mem_of_getLast?_eq
  rw [trim5_getLast?, List.getLast?_concat]

theorem dirStep_not_mem (a x : Str) (u : List Str) (p : Str × List Str) (h : x ∉ u) :
    x ∉ dirStep a u p := by
  unfold dirStep
  split
  · exact fun hm => h (List.erase_subset _ _ hm)
  · exact h

theorem dirStep_nodup (a : Str) (u : List Str) (p : Str × List Str) (h : u.Nodup) :
    (dirStep a u p).Nodup := by
  unfold dirStep
  split
  · exact h.erase _
  · exact h

theorem dirStep_mem (a x : Str) (u : List Str) (p : Str × List Str)
    (h : x ∈ dirStep a u p) : x ∈ u := by
  unfold dirStep at h
  split at h
  · exact List.erase_subset _ _ h
  · exact h

theorem dirStep_self (a : Str) (u : List Str) (p : Str × List Str)
    (hv : p.2.contains a = true) (hnd : u.Nodup) : p.1 ∉ dirStep a u p := by
  unfold dirStep
  by_cases hc : u.contains p.1 = true
  · rw [if_pos (by rw [hv, hc]; rfl)]
    exact hnd.not_mem_erase
  · have hnm : p.1 ∉ u := by simpa [List.contains, List.elem_iff] using hc
    split
    · exact hnd.not_mem_erase
    · exact hnm

theorem foldl_dirStep_not_mem (a x : Str) (l : List (Str × List Str)) :
    ∀ u : List Str, x ∉ u → x ∉ l.foldl (dirStep a) u := by
  induction l with
  | nil => exact fun u h => h
  | cons q rest ih => exact fun u h => ih _ (dirStep_not_mem a x u q h)

theorem foldl_dirStep_mem (a x : Str) (l : List (Str × List Str)) :
    ∀ u : List Str, x ∈ l.foldl (dirStep a) u → x ∈ u := by
  induction l with
  | nil => exact fun u h => h
  | cons q rest ih => exact fun u h => dirStep_mem a x u q (ih _ h)

theorem foldl_dirStep_nodup (a : Str) (l : List (Str × List Str)) :
    ∀ u : List Str, u.Nodup → (l.foldl (dirStep a) u).Nodup := by
  induction l with
  | nil => exact fun u h => h
  | cons q rest ih => exact fun u h => ih _ (dirStep_nodup a u q h)

theorem foldl_dirStep_self (a : Str) (l : List (Str × List Str)) (p : Str × List Str)
    (hp : p ∈ l) (hv : p.2.contains a = true) :
    ∀ u : List Str, u.Nodup → p.1 ∉ l.foldl (dirStep a) u := by
  induction l with
  | nil => simp at hp
  | cons q rest ih =>
    intro u hnd
    rcases List.mem_cons.mp hp with heq | hp2
    · subst heq
      exact foldl_dirStep_not_mem a p.1 rest _ (dirStep_self a u p hv hnd)
    · exact ih hp2 _ (dirStep_nodup a u q hnd)

theorem removeTried_canonical (a : Str) (u : List Str) (hnd : u.Nodup)
    (ha : a ∈ sixDirs) : a ∉ removeTriedDirs a u := by
  have hex : ∃ p ∈ directionVariants, p.1 = a ∧ p.2.contains a = true := by
    simp only [sixDirs, List.mem_cons, List.not_mem_nil, or_false] at ha
    rcases ha with rfl | rfl | rfl | rfl | rfl | rfl <;> decide
  obtain ⟨p, hp, hpa, hv⟩ := hex
  have h := foldl_dirStep_self a directionVariants p hp hv u hnd
  rw [hpa] at h
  exact h

theorem failedSub_unexp_sublist (va : List Str) (fa : List (Str × Nat)) (u : List Str)
    (a : Str) : (failedSub va fa u a).2.Sublist u := by
  unfold failedSub
  split
  · split
    · split <;> exact List.Sublist.refl u
    · cases u with
      | nil => exact List.Sublist.refl []
      | cons d rest => exact List.sublist_cons_self d rest
  · exact List.Sublist.refl u

/-- C1 counterexample pre-state: the agent has produced "look" three times,
the valid-actions list is the non-empty ["look"], no untried direction is
left and nothing has failed. -/
def c1St : AgentState :=
  { history := [], recentActions := [str "look", str "look"], score := 0,
    failedActions := [], locationsExplored := [], unexploredDirections := [],
    stepsSinceMapCheck := 0, stepsSinceProgress := 0, validActions := [str "look"],
    stepsSinceValidCheck := 0, currentMap := none, currentInventory := [] }

/-- C1 counterexample: the claim says the post-override action differs from
the repeated action whenever at least one entry of the valid-actions list is
available.  Here the valid-actions list is non-empty (["look"]) and the loop
trigger fires for the thrice-repeated action "look", yet the dispatched action
is exactly "look" — equal to the repeated action — because the only valid
action is itself inside the last 5 recorded actions and no untried direction
remains. -/
theorem c1_counterexample :
    c1St.validActions ≠ [] ∧
    validateAction c1St.validActions c1St.failedActions c1St.unexploredDirections
      (str "look") = (str "look", []) ∧
    lastThreeSame (trim5 (c1St.recentActions ++ [str "look"])) = true ∧
    (playSection c1St (JVal.jobj [(str "action", JVal.jstr (str "look"))])
      (str "look")).2.2 = str "look" :=
  ⟨by decide, by rfl, by rfl, by rfl⟩

/-- C1 amended: when the loop trigger fires after the validated action `a1`
was recorded, the override dispatches the first valid action that is neither
in the last 5 recorded actions nor in the failure table — necessarily
different from `a1`; with no such valid action it pops the next untried
direction, also different from `a1`; and with neither available it dispatches
exactly "look", which can coincide with the repeated action (see the
counterexample).  The hypotheses `hU`/`hND` are the standing invariants of
`unexplored_directions` (a duplicate-free sublist of the six seeded
directions). -/
theorem c1_loop_escape (st : AgentState) (args : JVal) (a0 a1 : Str) (u1 : List Str)
    (hU : ∀ d ∈ st.unexploredDirections, d ∈ sixDirs)
    (hND : st.unexploredDirections.Nodup)
    (hval : validateAction st.validActions st.failedActions st.unexploredDirections a0 =
      (a1, u1))
    (hloop : lastThreeSame (trim5 (st.recentActions ++ [a1])) = true) :
    (∀ v, List.find? (fun v => !((trim5 (st.recentActions ++ [a1])).contains v) &&
        !(hasKey st.failedActions v)) st.validActions = some v →
      (playSection { st with unexploredDirections := u1 } args a1).2.2 = v ∧ v ≠ a1) ∧
    (List.find? (fun v => !((trim5 (st.recentActions ++ [a1])).contains v) &&
        !(hasKey st.failedActions v)) st.validActions = none → u1 ≠ [] →
      (playSection { st with unexploredDirections := u1 } args a1).2.2 = u1.headD [] ∧
      (playSection { st with unexploredDirections := u1 } args a1).2.2 ≠ a1) ∧
    (List.find? (fun v => !((trim5 (st.recentActions ++ [a1])).contains v) &&
        !(hasKey st.failedActions v)) st.validActions = none → u1 = [] →
      (playSection { st with unexploredDirections := u1 } args a1).2.2 = str "look") := by
  -- decompose the validation: u1 is the direction-removal image of a
  -- duplicate-free sublist of the seeded directions
  obtain ⟨u', hfs, hu1⟩ : ∃ u',
      failedSub st.validActions st.failedActions st.unexploredDirections
        (normalizeVerb a0) = ((failedSub st.validActions st.failedActions
          st.unexploredDirections (normalizeVerb a0)).1, u') ∧
      u1 = removeTriedDirs a1 u' := by
    refine ⟨(failedSub st.validActions st.failedActions st.unexploredDirections
      (normalizeVerb a0)).2, rfl, ?_⟩
    unfold validateAction at hval
    have h1 := congrArg Prod.fst hval
    have h2 := congrArg Prod.snd hval
    dsimp only at h1 h2
    rw [← h2, ← h1]
  have hsub : u'.Sublist st.unexploredDirections := by
    have := failedSub_unexp_sublist st.validActions st.failedActions
      st.unexploredDirections (normalizeVerb a0)
    rwa [hfs] at this
  have hndu' : u'.Nodup := hsub.nodup hND
  have hU1 : ∀ d ∈ u1, d ∈ sixDirs := by
    intro d hd
    rw [hu1] at hd
    exact hU d (hsub.subset (foldl_dirStep_mem a1 d directionVariants u' hd))
  have hself : ∀ d ∈ u1, d ≠ a1 := by
    intro d hd heq
    subst heq
    rw [hu1] at hd
    exact removeTried_canonical d u' hndu' (hU1 d (hu1 ▸ hd)) hd
  have hplay : (playSection { st with unexploredDirections := u1 } args a1).2.2 =
      (loopOverride st.validActions st.failedActions
        (trim5 (st.recentActions ++ [a1])) u1).1 := by
    unfold playSection
    rw [if_pos hloop]
  have hmem_a1 : a1 ∈ trim5 (st.recentActions ++ [a1]) := mem_trim5_concat _ _
  refine ⟨?_, ?_, ?_⟩
  · intro v hv
    have hvm := List.mem_of_find?_eq_some hv
    have hvp := List.find?_some hv
    simp only [Bool.and_eq_true, Bool.not_eq_true'] at hvp
    have hvnr : v ∉ trim5 (st.recentActions ++ [a1]) := by
      intro hmem
      have : (trim5 (st.recentActions ++ [a1])).contains v = true := by
        simpa [List.contains, List.elem_iff] using hmem
      rw [this] at hvp
      exact Bool.noConfusion hvp.1
    have hvne : v ≠ a1 := fun he => hvnr (he ▸ hmem_a1)
    refine ⟨?_, hvne⟩
    rw [hplay]
    unfold loopOverride
    rw [if_pos (fun he => by rw [he] at hvm; simp at hvm), hv]
  · intro hnone hne
    rw [hplay]
    cases hu : u1 with
    | nil => exact absurd hu hne
    | cons d rest =>
      have hd : d ≠ a1 := hself d (by simp [hu])
      have hout : (loopOverride st.validActions st.failedActions
          (trim5 (st.recentActions ++ [a1])) (d :: rest)).1 = d := by
        unfold loopOverride
        by_cases hva : st.validActions = []
        · rw [if_neg (by simp [hva])]
        · rw [if_pos hva, hnone]
      rw [hout]
      exact ⟨rfl, hd⟩
  · intro hnone hu
    rw [hplay]
    unfold loopOverride
    subst hu
    by_cases hva : st.validActions = []
    · rw [if_neg (by simp [hva])]
    · rw [if_pos hva, hnone]

/-- Concrete pre-state for the C1 witness. -/
def c1wSt : AgentState :=
  { history := [], recentActions := [str "wait", str "wait"], score := 0,
    failedActions := [], locationsExplored := [],
    unexploredDirections := [str "north"], stepsSinceMapCheck := 0,
    stepsSinceProgress := 0, validActions := [str "open mailbox"],
    stepsSinceValidCheck := 0, currentMap := none, currentInventory := [] }

/-- Witness for C1 at a concrete loop escape that picks a fresh valid action. -/
theorem c1_loop_escape_witness :
    (∀ d ∈ c1wSt.unexploredDirections, d ∈ sixDirs) ∧
    c1wSt.unexploredDirections.Nodup ∧
    validateAction c1wSt.validActions c1wSt.failedActions c1wSt.unexploredDirections
      (str "wait") = (str "wait", [str "north"]) ∧
    lastThreeSame (trim5 (c1wSt.recentActions ++ [str "wait"])) = true ∧
    ((playSection { c1wSt with unexploredDirections := [str "north"] } (JVal.jobj [])
        (str "wait")).2.2 = str "open mailbox" ∧ str "open mailbox" ≠ str "wait") :=
  ⟨by decide, by decide, by rfl, by rfl,
   (c1_loop_escape c1wSt (JVal.jobj []) (str "wait") (str "wait") [str "north"]
       (by decide) (by decide) (by rfl) (by rfl)).1 (str "open mailbox") (by rfl)⟩

/-!  Preservation lemmas for the turn sections, used for C10 (and C3). -/

theorem mapSection_preserve (st : AgentState) (inp : TurnInputs) (st2 : AgentState)
    (h : mapSection st inp = .ok st2) :
    st2.recentActions = st.recentActions ∧ st2.history = st.history := by
  simp only [mapSection] at h
  repeat' split at h
  all_goals first
    | exact Except.noConfusion h
    | (injection h with h
       subst h
       exact ⟨rfl, rfl⟩)

theorem validSection_preserve (st : AgentState) (inp : TurnInputs) :
    (validSection st inp).recentActions = st.recentActions ∧
    (validSection st inp).history = st.history := by
  simp only [validSection]
  repeat' split
  all_goals exact ⟨rfl, rfl⟩

theorem validateToolCall_state (vt : List Str) (st : AgentState) (n : Str) (a : JVal)
    (st2 : AgentState) (tn : Str) (a2 : JVal) (ao : Option Str)
    (h : validateToolCall vt st n a = .ok (st2, tn, a2, ao)) :
    ∃ u, st2 = { st with unexploredDirections := u } := by
  simp only [validateToolCall] at h
  repeat' split at h
  all_goals first
    | exact Except.noConfusion h
    | (injection h with h2
       have hs := congrArg Prod.fst h2
       dsimp only at hs
       exact ⟨_, hs.symm⟩)

theorem playSection_recent (st : AgentState) (args : JVal) (action : Str) :
    (playSection st args action).1.recentActions.length ≤ 6 ∧
    (playSection st args action).1.history = st.history := by
  have ht := trim5_length (st.recentActions ++ [action])
  simp only [playSection]
  split
  · rcases hlo : loopOverride st.validActions st.failedActions
      (trim5 (st.recentActions ++ [action])) st.unexploredDirections with ⟨a2, u2⟩
    simp only [hlo]
    refine ⟨?_, trivial⟩
    simp only [List.length_append, List.length_singleton]
    omega
  · exact ⟨Nat.le_trans ht (by omega), rfl⟩

theorem postDispatch_preserve (st : AgentState) (rl : RunLocals) (stepIdx : Nat)
    (thought toolName : Str) (args : JVal) (dOpt : Option Str) (obs : Str)
    (st' : AgentState) (rl' : RunLocals)
    (h : postDispatch st rl stepIdx thought toolName args dOpt obs = .ok (st', rl')) :
    st'.recentActions = st.recentActions ∧ st'.history.length ≤ 10 ∧
    rl'.observation = rl.observation := by
  simp only [postDispatch] at h
  repeat' split at h
  all_goals first
    | exact Except.noConfusion h
    | (injection h with h2
       have hs := congrArg Prod.fst h2
       have hr := congrArg Prod.snd h2
       dsimp only at hs hr
       subst hs
       subst hr
       exact ⟨by rw [postTail_recent], postTail_hist_le _ _ _ _ _ _ _,
         by rw [postTail_obs]⟩)

/-- The tool names exposed by the MCP server (list_tools result). -/
def validTools0 : List Str :=
  [str "play_action", str "memory", str "get_map", str "inventory", str "get_valid_actions"]

/-- Concrete pre-state for the C10 counterexample: the recent-actions buffer
already holds 5 entries and the incoming decision repeats the last action a
third time. -/
def c10St : AgentState :=
  { history := [], recentActions := [str "a", str "b", str "c", str "up", str "up"],
    score := 0, failedActions := [], locationsExplored := [],
    unexploredDirections := [str "north"], stepsSinceMapCheck := 0,
    stepsSinceProgress := 0, validActions := [], stepsSinceValidCheck := 0,
    currentMap := none, currentInventory := [] }

/-- Concrete run locals for the C10 counterexample. -/
def c10Rl : RunLocals :=
  { location := str "nothing happens.", locationsVisited := [], moves := 0,
    observation := str "nothing happens.", actionVar := none, resultHistory := [] }

/-- Concrete turn inputs for the C10 counterexample. -/
def c10Inp : TurnInputs :=
  { mapResult := .ok (str "m"), validResult := .ok (str "v"),
    llmResult := .ok (str "TOOL: play_action\nARGS: \x7b\"action\": \"up\"\x7d"),
    dispatchResult := .ok (str "nothing happens.") }

/-- The result of the C10 counterexample turn. -/
def c10Res : AgentState × RunLocals × Bool :=
  match turn validTools0 c10St c10Rl 1 c10Inp with
  | .ok r => r
  | .error _ => (c10St, c10Rl, false)

/-- C10 counterexample: the claim says the recent-actions sequence holds at
most 5 entries at the end of every turn, including override turns.  In this
concrete override turn the loop-escape appends its substituted action after
the 5-entry trim, leaving 6 entries at the end of the turn. -/
theorem c10_counterexample :
    turn validTools0 c10St c10Rl 1 c10Inp = .ok c10Res ∧
    c10Res.1.recentActions.length = 6 :=
  ⟨rfl, rfl⟩

theorem turnTail_preserve (st : AgentState) (rl : RunLocals) (stepIdx : Nat)
    (thought toolName : Str) (args1 : JVal) (actionOpt : Option Str)
    (dR : Except Str Str) (st' : AgentState) (rl' : RunLocals) (done : Bool)
    (h : turnTail st rl stepIdx thought toolName args1 actionOpt dR = .ok (st', rl', done))
    (hpre : st.recentActions.length ≤ 6) :
    st'.recentActions.length ≤ 6 ∧ st'.history.length ≤ 10 ∧
    rl'.observation = (match dR with | .ok t => t | .error e => str "Error: " ++ e) ∧
    done = isGameOver rl'.observation := by
  simp only [turnTail] at h
  by_cases hplay : toolName = str "play_action"
  · rw [if_pos hplay] at h
    rcases hps : playSection st args1 (actionOf actionOpt) with ⟨st2, a2, d2⟩
    rw [hps] at h
    dsimp only at h
    have h2len : st2.recentActions.length ≤ 6 := by
      have h6 := (playSection_recent st args1 (actionOf actionOpt)).1
      rw [hps] at h6
      exact h6
    rw [hplay] at h
    cases dR with
    | ok t =>
      dsimp only at h
      rw [if_neg (by decide)] at h
      split at h
      · exact Except.noConfusion h
      · rename_i stF rlF heq
        injection h with h3
        obtain ⟨hsf, h4⟩ := Prod.mk.injEq .. |>.mp h3
        obtain ⟨hrf, hdone⟩ := Prod.mk.injEq .. |>.mp h4
        obtain ⟨hpre2, hhist, hobs⟩ := postDispatch_preserve _ _ _ _ _ _ _ _ _ _ heq
        subst hsf
        subst hrf
        subst hdone
        refine ⟨by rw [hpre2]; exact h2len, hhist, by rw [hobs], by rw [hobs]⟩
    | error e =>
      dsimp only at h
      split at h
      · exact Except.noConfusion h
      · rename_i stF rlF heq
        injection h with h3
        obtain ⟨hsf, h4⟩ := Prod.mk.injEq .. |>.mp h3
        obtain ⟨hrf, hdone⟩ := Prod.mk.injEq .. |>.mp h4
        obtain ⟨hpre2, hhist, hobs⟩ := postDispatch_preserve _ _ _ _ _ _ _ _ _ _ heq
        subst hsf
        subst hrf
        subst hdone
        refine ⟨by rw [hpre2]; exact h2len, hhist, by rw [hobs], by rw [hobs]⟩
  · rw [if_neg hplay] at h
    dsimp only at h
    cases dR with
    | ok t =>
      dsimp only at h
      by_cases hinv : toolName = str "inventory"
      · rw [if_pos hinv] at h
        split at h
        · exact Except.noConfusion h
        · rename_i stF rlF heq
          injection h with h3
          obtain ⟨hsf, h4⟩ := Prod.mk.injEq .. |>.mp h3
          obtain ⟨hrf, hdone⟩ := Prod.mk.injEq .. |>.mp h4
          obtain ⟨hpre2, hhist, hobs⟩ := postDispatch_preserve _ _ _ _ _ _ _ _ _ _ heq
          subst hsf
          subst hrf
          subst hdone
          refine ⟨by rw [hpre2]; exact hpre, hhist, by rw [hobs], by rw [hobs]⟩
      · rw [if_neg hinv] at h
        split at h
        · exact Except.noConfusion h
        · rename_i stF rlF heq
          injection h with h3
          obtain ⟨hsf, h4⟩ := Prod.mk.injEq .. |>.mp h3
          obtain ⟨hrf, hdone⟩ := Prod.mk.injEq .. |>.mp h4
          obtain ⟨hpre2, hhist, hobs⟩ := postDispatch_preserve _ _ _ _ _ _ _ _ _ _ heq
          subst hsf
          subst hrf
          subst hdone
          refine ⟨by rw [hpre2]; exact hpre, hhist, by rw [hobs], by rw [hobs]⟩
    | error e =>
      dsimp only at h
      split at h
      · exact Except.noConfusion h
      · rename_i stF rlF heq
        injection h with h3
        obtain ⟨hsf, h4⟩ := Prod.mk.injEq .. |>.mp h3
        obtain ⟨hrf, hdone⟩ := Prod.mk.injEq .. |>.mp h4
        obtain ⟨hpre2, hhist, hobs⟩ := postDispatch_preserve _ _ _ _ _ _ _ _ _ _ heq
        subst hsf
        subst hrf
        subst hdone
        refine ⟨by rw [hpre2]; exact hpre, hhist, by rw [hobs], by rw [hobs]⟩

/-- C10 amended: at the end of every turn the in-memory turn history holds at
most 10 entries, and the recent-actions sequence holds at most 6 entries (at
most 5 after the line-282 trim; the loop-escape override may append a sixth
entry, which the next play-action turn trims away). -/
theorem c10_bounded_history (vt : List Str) (st : AgentState) (rl : RunLocals)
    (stepIdx : Nat) (inp : TurnInputs) (st' : AgentState) (rl' : RunLocals) (done : Bool)
    (h : turn vt st rl stepIdx inp = .ok (st', rl', done))
    (hpre : st.recentActions.length ≤ 6) :
    st'.recentActions.length ≤ 6 ∧ st'.history.length ≤ 10 := by
  unfold turn at h
  cases hm : mapSection st inp with
  | error e => rw [hm] at h; exact Except.noConfusion h
  | ok stA =>
  rw [hm] at h
  dsimp only at h
  obtain ⟨hmr, _⟩ := mapSection_preserve st inp stA hm
  obtain ⟨hvr, _⟩ := validSection_preserve stA inp
  cases hl : inp.llmResult with
  | error e => rw [hl] at h; exact Except.noConfusion h
  | ok response =>
  rw [hl] at h
  dsimp only at h
  cases hp : parseResponse response with
  | error e => rw [hp] at h; exact Except.noConfusion h
  | ok trip =>
  obtain ⟨thought, toolName0, args0⟩ := trip
  rw [hp] at h
  dsimp only at h
  cases hv : validateToolCall vt (validSection stA inp) toolName0 args0 with
  | error e => rw [hv] at h; exact Except.noConfusion h
  | ok quad =>
  obtain ⟨stC, toolName, args1, actionOpt⟩ := quad
  rw [hv] at h
  dsimp only at h
  obtain ⟨u, hstC⟩ := validateToolCall_state vt (validSection stA inp) toolName0 args0
    stC toolName args1 actionOpt hv
  have hClen : stC.recentActions.length ≤ 6 := by
    rw [hstC]
    show (validSection stA inp).recentActions.length ≤ 6
    rw [hvr, hmr]
    exact hpre
  have hres := turnTail_preserve stC rl stepIdx thought toolName args1 actionOpt
    inp.dispatchResult st' rl' done h hClen
  exact ⟨hres.1, hres.2.1⟩

/-- Witness for C10 at a concrete ordinary (non-override) turn. -/
theorem c10_bounded_history_witness :
    turn validTools0 c1wSt c10Rl 1 c10Inp = .ok ((match turn validTools0 c1wSt c10Rl 1 c10Inp
      with | .ok r => r | .error _ => (c1wSt, c10Rl, false)).1,
      (match turn validTools0 c1wSt c10Rl 1 c10Inp
      with | .ok r => r | .error _ => (c1wSt, c10Rl, false)).2.1,
      (match turn validTools0 c1wSt c10Rl 1 c10Inp
      with | .ok r => r | .error _ => (c1wSt, c10Rl, false)).2.2) ∧
    c1wSt.recentActions.length ≤ 6 ∧
    ((match turn validTools0 c1wSt c10Rl 1 c10Inp
      with | .ok r => r | .error _ => (c1wSt, c10Rl, false)).1.recentActions.length ≤ 6 ∧
     (match turn validTools0 c1wSt c10Rl 1 c10Inp
      with | .ok r => r | .error _ => (c1wSt, c10Rl, false)).1.history.length ≤ 10) :=
  ⟨by rfl, by decide,
   c10_bounded_history validTools0 c1wSt c10Rl 1 c10Inp _ _ _ (by rfl) (by decide)⟩

/-!  Failure-count lemmas, for C5. -/

theorem hasKey_find?_some (l : List (Str × Nat)) (k : Str) (h : hasKey l k = true) :
    ∃ q, List.find? (fun p => p.1 = k) l = some q ∧ q.1 = k := by
  unfold hasKey at h
  cases hf : List.find? (fun p => decide (p.1 = k)) l with
  | some q =>
    have hq := List.find?_some hf
    simp only [decide_eq_true_eq] at hq
    exact ⟨q, rfl, hq⟩
  | none =>
    rw [List.find?_eq_none] at hf
    simp only [List.any_eq_true, decide_eq_true_eq] at h
    obtain ⟨p, hp, he⟩ := h
    exact absurd (by simp [he]) (hf p hp)

theorem hasKey_find?_none (l : List (Str × Nat)) (k : Str) (h : hasKey l k = false) :
    List.find? (fun p => p.1 = k) l = none := by
  rw [List.find?_eq_none]
  intro p hp
  simp only [decide_eq_true_eq]
  intro he
  have hh : hasKey l k = true := by
    unfold hasKey
    simp only [List.any_eq_true, decide_eq_true_eq]
    exact ⟨p, hp, he⟩
  rw [hh] at h
  exact Bool.noConfusion h

theorem countOf_bumpCount_self (l : List (Str × Nat)) (k : Str) :
    countOf (bumpCount l k) k = countOf l k + 1 := by
  unfold bumpCount countOf
  by_cases hk : hasKey l k = true
  · rw [if_pos hk]
    rw [find?_map_keyfix (fun p => if p.1 = k then (p.1, p.2 + 1) else p)
        (fun p => decide (p.1 = k)) (fun p => by by_cases h : p.1 = k <;> simp [h])]
    obtain ⟨q, hf, hq⟩ := hasKey_find?_some l k hk
    rw [hf]
    simp [hq]
  · rw [if_neg hk]
    have hn : hasKey l k = false := Bool.eq_false_iff.mpr hk
    rw [List.find?_append, hasKey_find?_none l k hn]
    simp

theorem countOf_bumpCount_other (l : List (Str × Nat)) (k b : Str) (h : b ≠ k) :
    countOf (bumpCount l k) b = countOf l b := by
  unfold bumpCount countOf
  by_cases hk : hasKey l k = true
  · rw [if_pos hk]
    rw [find?_map_keyfix (fun p => if p.1 = k then (p.1, p.2 + 1) else p)
        (fun p => decide (p.1 = b)) (fun p => by by_cases hpk : p.1 = k <;> simp [hpk])]
    cases hf : List.find? (fun p => decide (p.1 = b)) l with
    | none => rfl
    | some q =>
      have hq := List.find?_some hf
      simp only [decide_eq_true_eq] at hq
      have hqk : ¬(q.1 = k) := by rw [hq]; exact h
      simp [hqk]
  · rw [if_neg hk]
    rw [List.find?_append]
    cases hf : List.find? (fun p => decide (p.1 = b)) l with
    | none => simp [Ne.symm h]
    | some q => simp

theorem countOf_bumpCount_le (l : List (Str × Nat)) (k b : Str) :
    countOf l b ≤ countOf (bumpCount l k) b := by
  by_cases hb : b = k
  · subst hb
    rw [countOf_bumpCount_self]
    omega
  · rw [countOf_bumpCount_other l k b hb]

/-- Concrete pre-state for the C5 counterexample. -/
def c5St : AgentState :=
  { history := [], recentActions := [], score := 0, failedActions := [],
    locationsExplored := [], unexploredDirections := [], stepsSinceMapCheck := 0,
    stepsSinceProgress := 0, validActions := [], stepsSinceValidCheck := 0,
    currentMap := none, currentInventory := [] }

/-- Concrete run locals for the C5 counterexample: the previous observation
was the same refusal text, so the extracted location does not change. -/
def c5Rl : RunLocals :=
  { location := str "You can't go that way.", locationsVisited := [], moves := 1,
    observation := str "You can't go that way.", actionVar := some (str "up"),
    resultHistory := [] }

/-- The failing observation of the C5 counterexample: it matches the
failure-phrase lexicon and simultaneously reports a score increase. -/
def c5Obs : Str := str "You can't go that way.\nScore: 5"

/-- The result of the C5 counterexample turn. -/
def c5Res : AgentState × RunLocals :=
  match postDispatch c5St c5Rl 2 (str "t") (str "play_action")
      (JVal.jobj [(str "action", JVal.jstr (str "up"))]) (some (str "up")) c5Obs with
  | .ok p => p
  | .error _ => (c5St, c5Rl)

/-- C5 counterexample: the claim says the failure count is incremented exactly
when the observation matches the failure-phrase lexicon.  Here the observation
after the dispatched action "up" matches the lexicon ("can't"), yet no failure
count is incremented, because the same observation reports a score increase
and the failure check only runs on no-progress turns. -/
theorem c5_counterexample :
    matchesFailure c5Obs = true ∧
    postDispatch c5St c5Rl 2 (str "t") (str "play_action")
      (JVal.jobj [(str "action", JVal.jstr (str "up"))]) (some (str "up")) c5Obs =
      .ok (c5Res.1, c5Res.2) ∧
    countOf c5Res.1.failedActions (str "up") = 0 :=
  ⟨by rfl, by rfl, by rfl⟩

/-- C5 amended: on a play-action turn the failure count of the just-dispatched
action is incremented exactly when the turn made no progress (no location
change, no score increase) and the observation matches the failure-phrase
lexicon; no failure count ever decreases within a turn; and once an action's
normalised text has failed at least 3 times, the normalizer substitutes the
first valid action absent from the failure table whenever one exists, which
is necessarily a different action. -/
theorem c5_failure_counting :
    (∀ (st : AgentState) (rl : RunLocals) (i : Nat) (t : Str) (args : JVal) (d obs : Str)
      (st' : AgentState) (rl' : RunLocals),
      postDispatch st rl i t (str "play_action") args (some d) obs = .ok (st', rl') →
      countOf st'.failedActions d =
        countOf st.failedActions d +
          (if ¬(extractLocA obs ≠ rl.location ∨ st.score < updateScore st.score obs) ∧
              matchesFailure obs = true then 1 else 0)) ∧
    (∀ (st : AgentState) (rl : RunLocals) (i : Nat) (t n : Str) (args : JVal)
      (dOpt : Option Str) (obs : Str) (st' : AgentState) (rl' : RunLocals) (b : Str),
      postDispatch st rl i t n args dOpt obs = .ok (st', rl') →
      countOf st.failedActions b ≤ countOf st'.failedActions b) ∧
    (∀ (va : List Str) (fa : List (Str × Nat)) (u : List Str) (a0 v : Str),
      hasKey fa (normalizeVerb a0) = true → 3 ≤ countOf fa (normalizeVerb a0) →
      List.find? (fun w => !(hasKey fa w)) va = some v →
      (validateAction va fa u a0).1 = v ∧ v ≠ normalizeVerb a0) := by
  refine ⟨?_, ?_, ?_⟩
  · intro st rl i t args d obs st' rl' h
    simp only [postDispatch] at h
    split at h
    · rename_i hp
      rw [if_neg (by simp [hp])]
      split at h <;>
      · injection h with h2
        have hs := congrArg Prod.fst h2
        dsimp only at hs
        subst hs
        rw [postTail_failed]
        first
          | (split <;> simp)
          | simp
    · rename_i hp
      split at h
      · rename_i hfail
        rw [if_pos ⟨hp, hfail⟩]
        split at h
        · exact Except.noConfusion h
        · rename_i a hav
          injection h with h2
          have hs := congrArg Prod.fst h2
          dsimp only at hs
          subst hs
          rw [postTail_failed]
          have ha : a = d := by
            simp at hav
            exact hav.symm
          subst ha
          exact countOf_bumpCount_self _ _
      · rename_i hfail
        rw [if_neg (fun hc => hfail hc.2)]
        injection h with h2
        have hs := congrArg Prod.fst h2
        dsimp only at hs
        subst hs
        rw [postTail_failed]
        simp
  · intro st rl i t n args dOpt obs st' rl' b h
    simp only [postDispatch] at h
    repeat' split at h
    all_goals first
      | exact Except.noConfusion h
      | (injection h with h2
         have hs := congrArg Prod.fst h2
         dsimp only at hs
         subst hs
         rw [postTail_failed]
         try first
           | exact Nat.le_refl _
           | exact countOf_bumpCount_le _ _ _)
  · intro va fa u a0 v hk hc hf
    simp only [validateAction, failedSub]
    rw [if_pos ⟨hk, hc⟩]
    have hva : va ≠ [] := by
      intro he
      rw [he] at hf
      exact Option.noConfusion hf
    rw [if_pos hva, hf]
    have hv := List.find?_some hf
    simp only [Bool.not_eq_true'] at hv
    refine ⟨rfl, fun he => ?_⟩
    rw [he] at hv
    rw [hv] at hk
    exact Bool.noConfusion hk

/-- Concrete pre-state for the C5 witness: a genuine no-progress failing turn. -/
def c5wRl : RunLocals :=
  { location := str "You can't go that way.", locationsVisited := [], moves := 1,
    observation := str "You can't go that way.", actionVar := some (str "up"),
    resultHistory := [] }

/-- The result of the C5 witness turn. -/
def c5wRes : AgentState × RunLocals :=
  match postDispatch c5St c5wRl 2 (str "t") (str "play_action")
      (JVal.jobj [(str "action", JVal.jstr (str "up"))]) (some (str "up"))
      (str "You can't go that way.") with
  | .ok p => p
  | .error _ => (c5St, c5wRl)

/-- Witness for C5 at a concrete no-progress failing turn. -/
theorem c5_failure_counting_witness :
    postDispatch c5St c5wRl 2 (str "t") (str "play_action")
      (JVal.jobj [(str "action", JVal.jstr (str "up"))]) (some (str "up"))
      (str "You can't go that way.") = .ok (c5wRes.1, c5wRes.2) ∧
    countOf c5wRes.1.failedActions (str "up") =
      countOf c5St.failedActions (str "up") +
        (if ¬(extractLocA (str "You can't go that way.") ≠ c5wRl.location ∨
              c5St.score < updateScore c5St.score (str "You can't go that way.")) ∧
            matchesFailure (str "You can't go that way.") = true then 1 else 0) :=
  ⟨by rfl,
   c5_failure_counting.1 c5St c5wRl 2 (str "t")
     (JVal.jobj [(str "action", JVal.jstr (str "up"))]) (str "up")
     (str "You can't go that way.") c5wRes.1 c5wRes.2 (by rfl)⟩

/-! ### C3: termination condition and dispatch-error conversion -/

/-- The observation recorded by the per-turn dispatch try/except (lines
317-331): the dispatch result on success, "Error: <exception>" on failure. -/
def obsOf (dR : Except Str Str) : Str :=
  match dR with
  | .ok t => t
  | .error e => str "Error: " ++ e

theorem turn_preserve (vt : List Str) (st : AgentState) (rl : RunLocals)
    (stepIdx : Nat) (inp : TurnInputs) (st' : AgentState) (rl' : RunLocals) (done : Bool)
    (h : turn vt st rl stepIdx inp = .ok (st', rl', done))
    (hpre : st.recentActions.length ≤ 6) :
    st'.recentActions.length ≤ 6 ∧
    rl'.observation = obsOf inp.dispatchResult ∧
    done = isGameOver rl'.observation := by
  unfold turn at h
  cases hm : mapSection st inp with
  | error e => rw [hm] at h; exact Except.noConfusion h
  | ok stA =>
  rw [hm] at h
  dsimp only at h
  obtain ⟨hmr, _⟩ := mapSection_preserve st inp stA hm
  obtain ⟨hvr, _⟩ := validSection_preserve stA inp
  cases hl : inp.llmResult with
  | error e => rw [hl] at h; exact Except.noConfusion h
  | ok response =>
  rw [hl] at h
  dsimp only at h
  cases hp : parseResponse response with
  | error e => rw [hp] at h; exact Except.noConfusion h
  | ok trip =>
  obtain ⟨thought, toolName0, args0⟩ := trip
  rw [hp] at h
  dsimp only at h
  cases hv : validateToolCall vt (validSection stA inp) toolName0 args0 with
  | error e => rw [hv] at h; exact Except.noConfusion h
  | ok quad =>
  obtain ⟨stC, toolName, args1, actionOpt⟩ := quad
  rw [hv] at h
  dsimp only at h
  obtain ⟨u, hstC⟩ := validateToolCall_state vt (validSection stA inp) toolName0 args0
    stC toolName args1 actionOpt hv
  have hClen : stC.recentActions.length ≤ 6 := by
    rw [hstC]
    show (validSection stA inp).recentActions.length ≤ 6
    rw [hvr, hmr]
    exact hpre
  cases hdr : inp.dispatchResult with
  | ok t =>
    rw [hdr] at h
    have hres := turnTail_preserve stC rl stepIdx thought toolName args1 actionOpt
      (.ok t) st' rl' done h hClen
    exact ⟨hres.1, hres.2.2.1, hres.2.2.2⟩
  | error e =>
    rw [hdr] at h
    have hres := turnTail_preserve stC rl stepIdx thought toolName args1 actionOpt
      (.error e) st' rl' done h hClen
    exact ⟨hres.1, hres.2.2.1, hres.2.2.2⟩

/-- Concrete pre-state for the C3 counterexample: the map-refresh counter is
about to trigger a `get_map` dispatch, which is not wrapped in try/except. -/
def c3St : AgentState :=
  { history := [], recentActions := [], score := 0, failedActions := [],
    locationsExplored := [], unexploredDirections := [], stepsSinceMapCheck := 4,
    stepsSinceProgress := 0, validActions := [], stepsSinceValidCheck := 0,
    currentMap := none, currentInventory := [] }

/-- Concrete run locals for the C3 counterexample. -/
def c3Rl : RunLocals :=
  { location := str "West of House", locationsVisited := [], moves := 0,
    observation := str "", actionVar := none, resultHistory := [] }

/-- Concrete turn inputs for the C3 counterexample: the map refresh raises,
while the main dispatch would have succeeded. -/
def c3Inp : TurnInputs :=
  { mapResult := .error (str "boom"), validResult := .ok (str "v"),
    llmResult := .ok (str "TOOL: memory"),
    dispatchResult := .ok (str "Nothing happens.") }

/-- C3 counterexample: the claim says the run terminates at a turn if and only
if the observation contains a terminal phrase or the step budget is exhausted.
Here the run aborts on the first of two budgeted turns because the periodic
`get_map` refresh (agent.py line 237, outside any try/except) raises: no
terminal phrase was seen and one budgeted turn remains unused, and the turn's
own dispatch result was a success, so the abort does not come from the
per-turn dispatch try/except. -/
theorem c3_counterexample :
    runLoop validTools0 c3St c3Rl 1 [c3Inp, c3Inp] = .error (str "boom") ∧
    c3Inp.dispatchResult = .ok (str "Nothing happens.") :=
  ⟨rfl, rfl⟩

/-- C3 amended: on every turn that completes (no uncaught exception from the
map refresh, the LLM call, the parser or the validator), a dispatch exception
is converted into the observation string "Error: <exception>" and the turn
still completes, and the turn's game-over flag is exactly the terminal-phrase
test on the turn's observation; the run executes at most as many turns as the
step budget, and if it completes in strictly fewer turns than the budget the
final observation satisfies the terminal-phrase test.  (Unlike the original
claim, exceptions from the periodic map refresh or the LLM call do abort the
run, as the counterexample shows.) -/
theorem c3_termination :
    (∀ (vt : List Str) (st : AgentState) (rl : RunLocals) (i : Nat) (inp : TurnInputs)
      (st' : AgentState) (rl' : RunLocals) (done : Bool),
      st.recentActions.length ≤ 6 →
      turn vt st rl i inp = .ok (st', rl', done) →
      rl'.observation = obsOf inp.dispatchResult ∧
      done = isGameOver rl'.observation) ∧
    (∀ (vt : List Str) (inputs : List TurnInputs) (st : AgentState) (rl : RunLocals)
      (i : Nat) (st' : AgentState) (rl' : RunLocals) (n : Nat),
      st.recentActions.length ≤ 6 →
      runLoop vt st rl i inputs = .ok (st', rl', n) →
      n ≤ inputs.length ∧
      (n < inputs.length → isGameOver rl'.observation = true)) := by
  constructor
  · intro vt st rl i inp st' rl' done hpre h
    obtain ⟨_, hobs, hdone⟩ := turn_preserve vt st rl i inp st' rl' done h hpre
    exact ⟨hobs, hdone⟩
  · intro vt inputs
    induction inputs with
    | nil =>
      intro st rl i st' rl' n hpre h
      simp only [runLoop] at h
      injection h with h2
      obtain ⟨h3, h4⟩ := Prod.mk.injEq .. |>.mp h2
      obtain ⟨h5, h6⟩ := Prod.mk.injEq .. |>.mp h4
      subst h6
      exact ⟨Nat.le_refl _, fun hc => absurd hc (by simp)⟩
    | cons inp rest ih =>
      intro st rl i st' rl' n hpre h
      simp only [runLoop] at h
      cases ht : turn vt st rl i inp with
      | error e => rw [ht] at h; exact Except.noConfusion h
      | ok trip =>
      obtain ⟨st2, rl2, done⟩ := trip
      rw [ht] at h
      dsimp only at h
      obtain ⟨hrec2, hobs2, hdone2⟩ := turn_preserve vt st rl i inp st2 rl2 done ht hpre
      by_cases hd : done = true
      · rw [if_pos hd] at h
        injection h with h2
        obtain ⟨h3, h4⟩ := Prod.mk.injEq .. |>.mp h2
        obtain ⟨h5, h6⟩ := Prod.mk.injEq .. |>.mp h4
        subst h3
        subst h5
        subst h6
        refine ⟨by simp, fun hlt => hdone2.symm.trans hd⟩
      · rw [if_neg hd] at h
        cases hr : runLoop vt st2 rl2 (i + 1) rest with
        | error e => rw [hr] at h; exact Except.noConfusion h
        | ok trip2 =>
        obtain ⟨st3, rl3, m⟩ := trip2
        rw [hr] at h
        dsimp only at h
        injection h with h2
        obtain ⟨h3, h4⟩ := Prod.mk.injEq .. |>.mp h2
        obtain ⟨h5, h6⟩ := Prod.mk.injEq .. |>.mp h4
        subst h3
        subst h5
        subst h6
        obtain ⟨hle, hlt⟩ := ih st2 rl2 (i + 1) st3 rl3 m hrec2 hr
        refine ⟨by simp only [List.length_cons]; omega, fun hc => ?_⟩
        simp only [List.length_cons] at hc
        exact hlt (by omega)

/-- Concrete pre-state for the C3 witness turn. -/
def c3wSt : AgentState :=
  { history := [], recentActions := [], score := 0, failedActions := [],
    locationsExplored := [], unexploredDirections := [], stepsSinceMapCheck := 0,
    stepsSinceProgress := 0, validActions := [], stepsSinceValidCheck := 0,
    currentMap := none, currentInventory := [] }

/-- Concrete run locals for the C3 witness turn. -/
def c3wRl : RunLocals :=
  { location := str "West of House", locationsVisited := [], moves := 0,
    observation := str "", actionVar := some (str "wait"), resultHistory := [] }

/-- Concrete turn inputs for the C3 witness turn: the main dispatch raises. -/
def c3wInp : TurnInputs :=
  { mapResult := .ok (str "m"), validResult := .ok (str "v"),
    llmResult := .ok (str "TOOL: memory"),
    dispatchResult := .error (str "net down") }

/-- The result of the C3 witness turn. -/
def c3wRes : AgentState × RunLocals × Bool :=
  match turn validTools0 c3wSt c3wRl 1 c3wInp with
  | .ok r => r
  | .error _ => (c3wSt, c3wRl, true)

theorem c3_termination_witness :
    c3wRes.2.1.observation = obsOf c3wInp.dispatchResult ∧
    c3wRes.2.2 = isGameOver c3wRes.2.1.observation :=
  c3_termination.1 validTools0 c3wSt c3wRl 1 c3wInp c3wRes.1 c3wRes.2.1 c3wRes.2.2
    (by decide) (by rfl)

/-! ### C2: the response parser -/

/-- The THOUGHT-label test of the parser's elif chain (line 503). -/
def isThoughtL (l : Str) : Bool := isPre (str "THOUGHT:") (upperL (stripL l))

/-- The TOOL-label test of the parser's elif chain (line 506). -/
def isToolL (l : Str) : Bool := isPre (str "TOOL:") (upperL (stripL l))

/-- The ARGS-label test of the parser's elif chain (line 513). -/
def isArgsL (l : Str) : Bool := isPre (str "ARGS:") (upperL (stripL l))

/-- The text after the first colon of the stripped line
(`line.split(":", 1)[1]`). -/
def afterColon (l : Str) : Str :=
  match splitOnceC ':' (stripL l) with
  | some (_, a) => a
  | none => []

theorem isPre_iff_append (p s : Str) : isPre p s = true ↔ ∃ t, s = p ++ t := by
  induction p generalizing s with
  | nil => simp [isPre]
  | cons a as ih =>
    cases s with
    | nil =>
      simp only [isPre, List.cons_append]
      constructor
      · intro h
        exact Bool.noConfusion h
      · rintro ⟨t, ht⟩
        exact List.noConfusion ht
    | cons b bs =>
      simp only [isPre, Bool.and_eq_true, decide_eq_true_eq, ih, List.cons_append]
      constructor
      · rintro ⟨hab, t, hbs⟩
        exact ⟨t, by rw [hab, hbs]⟩
      · rintro ⟨t, ht⟩
        obtain ⟨h1, h2⟩ := List.cons.injEq .. |>.mp ht
        exact ⟨h1.symm, t, h2⟩

theorem upperC_eq_colon (d : Char) (h : upperC d = ':') : d = ':' := by
  unfold upperC at h
  split at h
  · rename_i hcond
    obtain ⟨h1, h2⟩ := hcond
    exfalso
    have hb1 : 65 ≤ d.toNat - 32 := by omega
    have hb2 : d.toNat - 32 ≤ 90 := by omega
    generalize hg : d.toNat - 32 = n at h hb1 hb2
    interval_cases n <;> exact absurd h (by decide)
  · exact h

theorem mem_colon_of_isPre (p s : Str) (h : isPre p (upperL s) = true)
    (hc : ':' ∈ p) : ':' ∈ s := by
  obtain ⟨t, ht⟩ := (isPre_iff_append p (upperL s)).mp h
  have hmem : ':' ∈ upperL s := by
    rw [ht]
    exact List.mem_append.mpr (Or.inl hc)
  obtain ⟨d, hd, hud⟩ := List.mem_map.mp hmem
  rw [← upperC_eq_colon d hud]
  exact hd

theorem splitOnceC_isSome_of_mem (c : Char) (s : Str) (h : c ∈ s) :
    (splitOnceC c s).isSome := by
  induction s with
  | nil => exact absurd h (List.not_mem_nil c)
  | cons a as ih =>
    by_cases ha : a = c
    · rw [splitOnceC, if_pos ha]
      rfl
    · have hmem : c ∈ as := by
        rcases List.mem_cons.mp h with h1 | h1
        · exact absurd h1.symm ha
        · exact h1
      obtain ⟨pr, hpr⟩ := Option.isSome_iff_exists.mp (ih hmem)
      rw [splitOnceC, if_neg ha, hpr]
      rfl

theorem parseLine_skip (acc : Str × Str × JVal) (l : Str)
    (h1 : isThoughtL l = false) (h2 : isToolL l = false) (h3 : isArgsL l = false) :
    parseLine acc l = .ok acc := by
  simp only [isThoughtL] at h1
  simp only [isToolL] at h2
  simp only [isArgsL] at h3
  simp only [parseLine]
  rw [if_neg (by simp [h1]), if_neg (by simp [h2]), if_neg (by simp [h3])]

theorem parseLine_thought (acc : Str × Str × JVal) (l : Str)
    (h : isThoughtL l = true) :
    parseLine acc l = .ok (stripL (afterColon l), acc.2.1, acc.2.2) := by
  simp only [isThoughtL] at h
  have hmem : ':' ∈ stripL l := mem_colon_of_isPre _ _ h (by decide)
  obtain ⟨pr, hsp⟩ := Option.isSome_iff_exists.mp (splitOnceC_isSome_of_mem ':' _ hmem)
  obtain ⟨b, a⟩ := pr
  simp only [parseLine, afterColon]
  rw [if_pos h, hsp]

theorem parseLine_tool (acc : Str × Str × JVal) (l : Str)
    (h : isToolL l = true) :
    parseLine acc l = (parseToolLine (afterColon l)).map
      (fun t => (acc.1, t, acc.2.2)) := by
  simp only [isToolL] at h
  obtain ⟨t, ht⟩ := (isPre_iff_append _ _).mp h
  have hTh : isPre (str "THOUGHT:") (upperL (stripL l)) = false := by
    rw [ht]
    rfl
  have hmem : ':' ∈ stripL l := mem_colon_of_isPre _ _ h (by decide)
  obtain ⟨pr, hsp⟩ := Option.isSome_iff_exists.mp (splitOnceC_isSome_of_mem ':' _ hmem)
  obtain ⟨b, a⟩ := pr
  simp only [parseLine, afterColon]
  rw [if_neg (by simp [hTh]), if_pos h, hsp]

theorem parseLine_args (acc : Str × Str × JVal) (l : Str)
    (h : isArgsL l = true) :
    parseLine acc l = .ok (acc.1, acc.2.1, parseArgsPart (stripL (afterColon l))) := by
  simp only [isArgsL] at h
  obtain ⟨t, ht⟩ := (isPre_iff_append _ _).mp h
  have hTh : isPre (str "THOUGHT:") (upperL (stripL l)) = false := by
    rw [ht]
    rfl
  have hTo : isPre (str "TOOL:") (upperL (stripL l)) = false := by
    rw [ht]
    rfl
  have hmem : ':' ∈ stripL l := mem_colon_of_isPre _ _ h (by decide)
  obtain ⟨pr, hsp⟩ := Option.isSome_iff_exists.mp (splitOnceC_isSome_of_mem ':' _ hmem)
  obtain ⟨b, a⟩ := pr
  simp only [parseLine, afterColon]
  rw [if_neg (by simp [hTh]), if_neg (by simp [hTo]), if_pos h, hsp]

theorem parseLines_append (acc : Str × Str × JVal) (ls1 ls2 : List Str) :
    parseLines acc (ls1 ++ ls2) =
      (parseLines acc ls1).bind (fun a => parseLines a ls2) := by
  induction ls1 generalizing acc with
  | nil => rfl
  | cons l ls ih =>
    simp only [List.cons_append, parseLines]
    cases hpl : parseLine acc l with
    | error e => rfl
    | ok a2 => exact ih a2

theorem parseLines_skip (acc : Str × Str × JVal) (ls : List Str)
    (h : ∀ l ∈ ls, isThoughtL l = false ∧ isToolL l = false ∧ isArgsL l = false) :
    parseLines acc ls = .ok acc := by
  induction ls with
  | nil => rfl
  | cons l rest ih =>
    obtain ⟨h1, h2, h3⟩ := h l (List.mem_cons_self l rest)
    rw [parseLines, parseLine_skip acc l h1 h2 h3]
    exact ih (fun x hx => h x (List.mem_cons_of_mem l hx))

/-- C2 counterexample: the claim says the parser never raises and keeps the
first occurrence of each label.  But the LLM output "TOOL: * *" raises
IndexError (after stripping the decorative stars the remainder is a nonempty
whitespace string, so `tool_part.split()[0]` indexes an empty list), and when
a label occurs twice the parser keeps the LAST occurrence, not the first:
with two THOUGHT lines the recorded rationale is the second one. -/
theorem c2_counterexample :
    parseResponse (str "TOOL: * *") = .error (str "IndexError") ∧
    parseResponse (str "THOUGHT: a\nTHOUGHT: b\nTOOL: memory") =
      .ok (str "b", str "memory", .jobj [(str "action", .jstr (str "look"))]) ∧
    str "b" ≠ str "a" :=
  ⟨rfl, rfl, by decide⟩

/-- C2 amended: the parser recognizes the three labels on stripped lines
case-insensitively in any order, but each labeled line OVERWRITES the
accumulated field, so the last occurrence of a label wins; unlabeled lines
are skipped; a missing label leaves the documented default in place; and the
parser is total except on TOOL lines, where the tool-name extraction is
applied to the text after the colon and can raise IndexError (so the parser
does not "never raise").  Conjuncts: (1) unlabeled lines leave the
accumulator unchanged; (2) a THOUGHT line replaces the rationale with the
stripped post-colon text; (3) a TOOL line maps the accumulator through the
tool-name extraction of the post-colon text, which yields either the new
tool name or IndexError; (4) an ARGS line replaces the arguments with the
parse of the stripped post-colon text; (5) the line loop is compositional,
so later lines act on (and override) the result of earlier ones; (6) a
response with no labeled lines parses to exactly the documented defaults;
(7) appending a THOUGHT line to any line list overrides the rationale with
that line's value, leaving tool and arguments unchanged. -/
theorem c2_parse_response_lines :
    (∀ (acc : Str × Str × JVal) (l : Str),
      isThoughtL l = false → isToolL l = false → isArgsL l = false →
      parseLine acc l = .ok acc) ∧
    (∀ (acc : Str × Str × JVal) (l : Str), isThoughtL l = true →
      parseLine acc l = .ok (stripL (afterColon l), acc.2.1, acc.2.2)) ∧
    (∀ (acc : Str × Str × JVal) (l : Str), isToolL l = true →
      parseLine acc l = (parseToolLine (afterColon l)).map
        (fun t => (acc.1, t, acc.2.2))) ∧
    (∀ (acc : Str × Str × JVal) (l : Str), isArgsL l = true →
      parseLine acc l = .ok (acc.1, acc.2.1, parseArgsPart (stripL (afterColon l)))) ∧
    (∀ (acc : Str × Str × JVal) (ls1 ls2 : List Str),
      parseLines acc (ls1 ++ ls2) =
        (parseLines acc ls1).bind (fun a => parseLines a ls2)) ∧
    (∀ r : Str,
      (∀ l ∈ splitNL (stripL r),
        isThoughtL l = false ∧ isToolL l = false ∧ isArgsL l = false) →
      parseResponse r = .ok parseDefaults) ∧
    (∀ (acc : Str × Str × JVal) (ls : List Str) (l : Str), isThoughtL l = true →
      parseLines acc (ls ++ [l]) =
        (parseLines acc ls).map (fun a => (stripL (afterColon l), a.2.1, a.2.2))) := by
  refine ⟨parseLine_skip, parseLine_thought, parseLine_tool, parseLine_args,
    parseLines_append, ?_, ?_⟩
  · intro r h
    exact parseLines_skip parseDefaults (splitNL (stripL r)) h
  · intro acc ls l h
    rw [parseLines_append]
    cases hls : parseLines acc ls with
    | error e => rfl
    | ok a =>
      show parseLines a [l] = _
      rw [parseLines, parseLine_thought a l h]
      rfl

theorem c2_parse_response_lines_witness :
    parseLine parseDefaults (str "TOOL: Memory") =
      (parseToolLine (afterColon (str "TOOL: Memory"))).map
        (fun t => (parseDefaults.1, t, parseDefaults.2.2)) :=
  c2_parse_response_lines.2.2.1 parseDefaults (str "TOOL: Memory") (by rfl)

end ZorkAgent
